import Mathlib

/-!
Shallow embedding of the Smart Parking System (single C file `smart_parking.c`).

The C program keeps its state in global variables:
a 1-based min-heap of free slot numbers (`heapArr`, `heapSize`),
a circular waiting queue (`waitQ`, `waitFront`, `waitRear`, `waitCount`),
per-car maps (`slotOfCar`, `entryTimeOfCar`, `passUser`),
a slot occupancy map (`slotToCar`), a newest-first history list and `totalRevenue`.

Arrays are embedded as total functions out of the index type, `time_t` as `Int`,
and each mutating C function becomes a pure function on a `State` record.  The
two `while` loops inside the heap code are embedded with an explicit fuel that
is a provable upper bound on their iteration count (sift-up runs at most `i`
steps, sift-down at most `sz + 1 - i` steps), so every definition is executable
by kernel reduction.
-/

namespace SmartParking

/-! ### Min-heap of free slots (heapArr / heapSize, 1-based) -/

structure HeapSt where
  arr : Nat → Int
  size : Nat

/-- `heapSwap(i, j)` on the heap array. -/
def heapSwap (a : Nat → Int) (i j : Nat) : Nat → Int :=
  fun k => if k = i then a j else if k = j then a i else a k

/-- The `while (i > 1)` loop of `heapInsert`, with fuel.  Each iteration moves
to `i / 2 < i`, so fuel `i` suffices. -/
def siftUpAux : Nat → (Nat → Int) → Nat → (Nat → Int)
  | 0, a, _ => a
  | fuel + 1, a, i =>
      if 1 < i then
        let parent := i / 2
        if a parent ≤ a i then a
        else siftUpAux fuel (heapSwap a parent i) parent
      else a

/-- `heapInsert`: ignores the value when the heap is full (`heapSize >= MAX_SLOTS`),
otherwise appends at position `heapSize + 1` and sifts up. -/
def heapInsert (h : HeapSt) (val : Int) : HeapSt :=
  if 10 ≤ h.size then h
  else
    let n := h.size + 1
    let a : Nat → Int := fun k => if k = n then val else h.arr k
    { arr := siftUpAux n a n, size := n }

/-- The `while (1)` loop of `heapRemoveMin`, with fuel.  Each iteration moves
from `i` to a strict descendant `≤ sz`, so fuel `sz + 1 - i` suffices. -/
def siftDownAux : Nat → (Nat → Int) → Nat → Nat → (Nat → Int)
  | 0, a, _, _ => a
  | fuel + 1, a, sz, i =>
      let l := 2 * i
      let r := l + 1
      let s1 := if l ≤ sz ∧ a l < a i then l else i
      let s2 := if r ≤ sz ∧ a r < a s1 then r else s1
      if s2 = i then a
      else siftDownAux fuel (heapSwap a i s2) sz s2

/-- `heapRemoveMin`: returns `-1` on an empty heap, otherwise removes the root,
moves the last element to the root and sifts down. -/
def heapRemoveMin (h : HeapSt) : HeapSt × Int :=
  if h.size = 0 then (h, -1)
  else
    let ret := h.arr 1
    let a : Nat → Int := fun k => if k = 1 then h.arr h.size else h.arr k
    let sz := h.size - 1
    ({ arr := siftDownAux sz a sz 1, size := sz }, ret)

/-- The list of values stored at positions `1..n` of a heap array. -/
def heapListA (a : Nat → Int) (n : Nat) : List Int :=
  (List.range n).map fun k => a (k + 1)

/-- The multiset of elements currently held by the heap. -/
def heapList (h : HeapSt) : List Int := heapListA h.arr h.size

/-- The binary min-heap ordering property for positions `1..n`. -/
def heapOrd (a : Nat → Int) (n : Nat) : Prop :=
  ∀ i, 2 ≤ i → i ≤ n → a (i / 2) ≤ a i

theorem heapSwap_apply_left (a : Nat → Int) (i j : Nat) : heapSwap a i j i = a j := by
  simp [heapSwap]

theorem heapSwap_apply_right (a : Nat → Int) (i j : Nat) (hij : i ≠ j) :
    heapSwap a i j j = a i := by
  simp [heapSwap, hij.symm]

theorem heapSwap_apply_other (a : Nat → Int) (i j k : Nat) (hk1 : k ≠ i) (hk2 : k ≠ j) :
    heapSwap a i j k = a k := by
  simp [heapSwap, hk1, hk2]

/-- The multiset of values stored at positions `1..n`. -/
def hmsA (a : Nat → Int) (n : Nat) : Multiset Int := (heapListA a n : Multiset Int)

theorem hmsA_eq_map (a : Nat → Int) (n : Nat) :
    hmsA a n = Multiset.map (fun k => a (k + 1)) (Multiset.range n) := by
  rfl

/-- Swapping two in-range positions does not change the stored multiset. -/
theorem hmsA_heapSwap (a : Nat → Int) (i j n : Nat)
    (hi1 : 1 ≤ i) (hin : i ≤ n) (hj1 : 1 ≤ j) (hjn : j ≤ n) :
    hmsA (heapSwap a i j) n = hmsA a n := by
  rcases eq_or_ne i j with hij | hij
  · subst hij
    have : heapSwap a i i = a := by
      funext k
      simp only [heapSwap]
      split_ifs with h1
      · subst h1; rfl
      · rfl
    rw [this]
  · have hmem_i : i - 1 ∈ Multiset.range n := by
      rw [Multiset.mem_range]; omega
    have hne : j - 1 ≠ i - 1 := by omega
    have hmem_j : j - 1 ∈ (Multiset.range n).erase (i - 1) := by
      rw [Multiset.mem_erase_of_ne hne, Multiset.mem_range]; omega
    have hdecomp : Multiset.range n =
        (i - 1) ::ₘ (j - 1) ::ₘ (((Multiset.range n).erase (i - 1)).erase (j - 1)) := by
      rw [Multiset.cons_erase hmem_j, Multiset.cons_erase hmem_i]
    have hnodup : (Multiset.range n).Nodup := Multiset.nodup_range n
    have hrest : ∀ k ∈ ((Multiset.range n).erase (i - 1)).erase (j - 1),
        heapSwap a i j (k + 1) = a (k + 1) := by
      intro k hk
      have hk2 := (Multiset.Nodup.mem_erase_iff (hnodup.erase _)).1 hk
      have hk3 := (Multiset.Nodup.mem_erase_iff hnodup).1 hk2.2
      exact heapSwap_apply_other a i j (k + 1) (by omega) (by omega)
    have hi' : i - 1 + 1 = i := by omega
    have hj' : j - 1 + 1 = j := by omega
    rw [hmsA_eq_map, hmsA_eq_map, hdecomp]
    simp only [Multiset.map_cons, hi', hj']
    rw [heapSwap_apply_left, heapSwap_apply_right a i j hij,
        Multiset.map_congr rfl hrest, Multiset.cons_swap]

/-- The sift-up loop permutes positions `1..n` (it only swaps in-range cells). -/
theorem siftUpAux_hmsA (n : Nat) :
    ∀ fuel a i, 1 ≤ i → i ≤ n → hmsA (siftUpAux fuel a i) n = hmsA a n := by
  intro fuel
  induction fuel with
  | zero => intro a i _ _; rfl
  | succ fuel ih =>
    intro a i hi1 hin
    simp only [siftUpAux]
    by_cases h1 : 1 < i
    · rw [if_pos h1]
      by_cases h2 : a (i / 2) ≤ a i
      · rw [if_pos h2]
      · rw [if_neg h2]
        have hp1 : 1 ≤ i / 2 := Nat.one_le_div_iff (by omega) |>.2 (by omega)
        have hpn : i / 2 ≤ n := le_trans (Nat.div_le_self i 2) hin
        rw [ih (heapSwap a (i / 2) i) (i / 2) hp1 hpn,
            hmsA_heapSwap a (i / 2) i n hp1 hpn hi1 hin]
    · rw [if_neg h1]

/-- The sift-down loop permutes positions `1..sz`. -/
theorem siftDownAux_hmsA :
    ∀ fuel a sz i, 1 ≤ i → hmsA (siftDownAux fuel a sz i) sz = hmsA a sz := by
  intro fuel
  induction fuel with
  | zero => intro a sz i _; rfl
  | succ fuel ih =>
    intro a sz i hi1
    simp only [siftDownAux]
    by_cases h1 : 2 * i ≤ sz ∧ a (2 * i) < a i
    · rw [if_pos h1]
      by_cases h2 : 2 * i + 1 ≤ sz ∧ a (2 * i + 1) < a (2 * i)
      · rw [if_pos h2, if_neg (by omega : ¬ (2 * i + 1 = i))]
        rw [ih _ sz (2 * i + 1) (by omega),
            hmsA_heapSwap a i (2 * i + 1) sz hi1 (by omega) (by omega) h2.1]
      · rw [if_neg h2, if_neg (by omega : ¬ (2 * i = i))]
        rw [ih _ sz (2 * i) (by omega),
            hmsA_heapSwap a i (2 * i) sz hi1 (by omega) (by omega) h1.1]
    · rw [if_neg h1]
      by_cases h2 : 2 * i + 1 ≤ sz ∧ a (2 * i + 1) < a i
      · rw [if_pos h2, if_neg (by omega : ¬ (2 * i + 1 = i))]
        rw [ih _ sz (2 * i + 1) (by omega),
            hmsA_heapSwap a i (2 * i + 1) sz hi1 (by omega) (by omega) h2.1]
      · rw [if_neg h2, if_pos rfl]

/-- Loop invariant of sift-up: the array is heap-ordered except possibly on the
edge from the parent of `i` into `i`, and the parent of `i` already dominates
the children of `i`. -/
def upInv (a : Nat → Int) (n i : Nat) : Prop :=
  (∀ j, 2 ≤ j → j ≤ n → j ≠ i → a (j / 2) ≤ a j) ∧
  (∀ j, 2 ≤ j → j ≤ n → j / 2 = i → 2 ≤ i → a (i / 2) ≤ a j)

theorem siftUpAux_heapOrd (n : Nat) :
    ∀ fuel a i, 1 ≤ i → i ≤ n → i ≤ fuel + 1 → upInv a n i →
      heapOrd (siftUpAux fuel a i) n := by
  intro fuel
  induction fuel with
  | zero =>
    intro a i hi1 _ hif hinv
    have hi : i = 1 := by omega
    subst hi
    intro j hj2 hjn
    exact hinv.1 j hj2 hjn (by omega)
  | succ fuel ih =>
    intro a i hi1 hin hif hinv
    simp only [siftUpAux]
    by_cases h1 : 1 < i
    · rw [if_pos h1]
      by_cases h2 : a (i / 2) ≤ a i
      · rw [if_pos h2]
        intro j hj2 hjn
        rcases eq_or_ne j i with hji | hji
        · subst hji; exact h2
        · exact hinv.1 j hj2 hjn hji
      · rw [if_neg h2]
        have hp1 : 1 ≤ i / 2 := Nat.one_le_div_iff (by omega) |>.2 (by omega)
        have hplt : i / 2 < i := Nat.div_lt_self (by omega) (by omega)
        refine ih (heapSwap a (i / 2) i) (i / 2) hp1 (by omega) (by omega) ?_
        have hlt : a i < a (i / 2) := lt_of_not_le h2
        constructor
        · intro j hj2 hjn hjp
          rcases eq_or_ne j i with hji | hji
          · subst hji
            have e1 : j / 2 ≠ j := by omega
            rw [heapSwap_apply_left, heapSwap_apply_right a (j / 2) j e1]
            exact le_of_lt hlt
          · rcases eq_or_ne (j / 2) i with hdi | hdi
            · -- j is a child of i
              have hji2 : i < j := by omega
              rw [hdi, heapSwap_apply_right a (i / 2) i (by omega),
                  heapSwap_apply_other a (i / 2) i j (by omega) (by omega)]
              exact hinv.2 j hj2 hjn hdi (by omega)
            · rcases eq_or_ne (j / 2) (i / 2) with hdp | hdp
              · -- j is the sibling of i
                rw [hdp, heapSwap_apply_left,
                    heapSwap_apply_other a (i / 2) i j hjp hji]
                exact le_trans (le_of_lt hlt) (hdp ▸ hinv.1 j hj2 hjn hji)
              · rw [heapSwap_apply_other a (i / 2) i (j / 2) hdp hdi,
                    heapSwap_apply_other a (i / 2) i j hjp hji]
                exact hinv.1 j hj2 hjn hji
        · intro j hj2 hjn hjd hp2
          have hpp : i / 2 / 2 ≠ i / 2 := by omega
          have hppi : i / 2 / 2 ≠ i := by omega
          rw [heapSwap_apply_other a (i / 2) i (i / 2 / 2) hpp hppi]
          rcases eq_or_ne j i with hji | hji
          · subst hji
            rw [heapSwap_apply_right a (j / 2) j (by omega)]
            exact hinv.1 (j / 2) hp2 (by omega) (by omega)
          · have hjne : j ≠ i / 2 := by omega
            rw [heapSwap_apply_other a (i / 2) i j hjne hji]
            exact le_trans (hinv.1 (i / 2) hp2 (by omega) (by omega))
              (hjd ▸ hinv.1 j hj2 hjn hji)
    · rw [if_neg h1]
      intro j hj2 hjn
      exact hinv.1 j hj2 hjn (by omega)

/-- Loop invariant of sift-down: heap-ordered except possibly on the edges from
`i` into its children, and the parent of `i` already dominates the children of
`i`. -/
def downInv (a : Nat → Int) (sz i : Nat) : Prop :=
  (∀ j, 2 ≤ j → j ≤ sz → j / 2 ≠ i → a (j / 2) ≤ a j) ∧
  (∀ j, 2 ≤ j → j ≤ sz → j / 2 = i → 2 ≤ i → a (i / 2) ≤ a j)

/-- One sift-down swap step with the minimal violating child re-establishes the
loop invariant at that child. -/
theorem downInv_heapSwap (a : Nat → Int) (sz i s : Nat)
    (hi1 : 1 ≤ i) (hs : s = 2 * i ∨ s = 2 * i + 1) (hssz : s ≤ sz)
    (hsi : a s < a i)
    (hmin : ∀ t, (t = 2 * i ∨ t = 2 * i + 1) → t ≤ sz → a s ≤ a t)
    (hinv : downInv a sz i) : downInv (heapSwap a i s) sz s := by
  have his : i < s := by omega
  have hsd : s / 2 = i := by omega
  constructor
  · intro j hj2 hjsz hjs
    rcases eq_or_ne j s with hjeq | hjeq
    · subst hjeq
      rw [hsd, heapSwap_apply_left, heapSwap_apply_right a i j (by omega)]
      exact le_of_lt hsi
    · rcases eq_or_ne j i with hji | hji
      · subst hji
        have h2j : 2 ≤ j := hj2
        rw [heapSwap_apply_other a j s (j / 2) (by omega) (by omega),
            heapSwap_apply_left]
        exact hinv.2 s (by omega) hssz hsd (by omega)
      · rcases eq_or_ne (j / 2) i with hdi | hdi
        · -- j is the other child of i
          rw [hdi, heapSwap_apply_left,
              heapSwap_apply_other a i s j hji hjeq]
          exact hmin j (by omega) hjsz
        · rw [heapSwap_apply_other a i s (j / 2) hdi hjs,
              heapSwap_apply_other a i s j hji hjeq]
          exact hinv.1 j hj2 hjsz hdi
  · intro j hj2 hjsz hjd hs2
    rw [hsd, heapSwap_apply_left,
        heapSwap_apply_other a i s j (by omega) (by omega)]
    have := hinv.1 j hj2 hjsz (by omega)
    rwa [hjd] at this

theorem siftDownAux_heapOrd :
    ∀ fuel a sz i, 1 ≤ i → sz + 1 ≤ fuel + i → downInv a sz i →
      heapOrd (siftDownAux fuel a sz i) sz := by
  intro fuel
  induction fuel with
  | zero =>
    intro a sz i hi1 hif hinv
    intro j hj2 hjsz
    exact hinv.1 j hj2 hjsz (by omega)
  | succ fuel ih =>
    intro a sz i hi1 hif hinv
    simp only [siftDownAux]
    by_cases h1 : 2 * i ≤ sz ∧ a (2 * i) < a i
    · rw [if_pos h1]
      by_cases h2 : 2 * i + 1 ≤ sz ∧ a (2 * i + 1) < a (2 * i)
      · rw [if_pos h2, if_neg (by omega : ¬ (2 * i + 1 = i))]
        refine ih _ sz (2 * i + 1) (by omega) (by omega) ?_
        exact downInv_heapSwap a sz i (2 * i + 1) hi1 (Or.inr rfl) h2.1
          (lt_trans h2.2 h1.2)
          (by
            intro t ht htsz
            rcases ht with ht | ht <;> subst ht
            · exact le_of_lt h2.2
            · exact le_refl _)
          hinv
      · rw [if_neg h2, if_neg (by omega : ¬ (2 * i = i))]
        refine ih _ sz (2 * i) (by omega) (by omega) ?_
        exact downInv_heapSwap a sz i (2 * i) hi1 (Or.inl rfl) h1.1 h1.2
          (by
            intro t ht htsz
            rcases ht with ht | ht <;> subst ht
            · exact le_refl _
            · exact le_of_not_lt fun hc => h2 ⟨htsz, hc⟩)
          hinv
    · rw [if_neg h1]
      by_cases h2 : 2 * i + 1 ≤ sz ∧ a (2 * i + 1) < a i
      · rw [if_pos h2, if_neg (by omega : ¬ (2 * i + 1 = i))]
        refine ih _ sz (2 * i + 1) (by omega) (by omega) ?_
        exact downInv_heapSwap a sz i (2 * i + 1) hi1 (Or.inr rfl) h2.1 h2.2
          (by
            intro t ht htsz
            rcases ht with ht | ht <;> subst ht
            · exact le_trans (le_of_lt h2.2) (le_of_not_lt fun hc => h1 ⟨htsz, hc⟩)
            · exact le_refl _)
          hinv
      · rw [if_neg h2, if_pos rfl]
        intro j hj2 hjsz
        rcases eq_or_ne (j / 2) i with hdi | hdi
        · have hj : j = 2 * i ∨ j = 2 * i + 1 := by omega
          rcases hj with hj | hj <;> subst hj
          · rw [hdi]
            exact le_of_not_lt fun hc => h1 ⟨hjsz, hc⟩
          · rw [hdi]
            exact le_of_not_lt fun hc => h2 ⟨hjsz, hc⟩
        · exact hinv.1 j hj2 hjsz hdi

/-- Root dominance: in a heap-ordered array the root is a lower bound. -/
theorem heapOrd_root_le (a : Nat → Int) (n : Nat) (h : heapOrd a n) :
    ∀ i, 1 ≤ i → i ≤ n → a 1 ≤ a i := by
  intro i
  induction i using Nat.strong_induction_on with
  | _ i ih =>
    intro h1 h2
    rcases Nat.lt_or_ge i 2 with hi | hi
    · interval_cases i
      · exact le_refl _
    · have hdiv1 : 1 ≤ i / 2 := Nat.one_le_div_iff (by omega) |>.2 (by omega)
      have hdivlt : i / 2 < i := Nat.div_lt_self (by omega) (by omega)
      exact le_trans (ih (i / 2) hdivlt hdiv1 (by omega)) (h i hi h2)

theorem hmsA_mem (a : Nat → Int) (n k : Nat) (hk1 : 1 ≤ k) (hkn : k ≤ n) :
    a k ∈ hmsA a n := by
  rw [hmsA_eq_map]
  refine Multiset.mem_map.2 ⟨k - 1, ?_, ?_⟩
  · rw [Multiset.mem_range]; omega
  · have e : k - 1 + 1 = k := by omega
    rw [e]

theorem heapOrd_le_of_mem (a : Nat → Int) (n : Nat) (hord : heapOrd a n) (x : Int)
    (hx : x ∈ hmsA a n) : a 1 ≤ x := by
  rw [hmsA_eq_map] at hx
  rcases Multiset.mem_map.1 hx with ⟨k, hk, rfl⟩
  rw [Multiset.mem_range] at hk
  exact heapOrd_root_le a n hord (k + 1) (by omega) (by omega)

/-- Full specification of `heapInsert` below capacity: size grows by one, the
heap ordering is preserved, and the stored multiset gains the new value. -/
theorem heapInsert_spec (h : HeapSt) (v : Int)
    (hord : heapOrd h.arr h.size) (hsz : h.size < 10) :
    (heapInsert h v).size = h.size + 1 ∧
    heapOrd (heapInsert h v).arr (h.size + 1) ∧
    hmsA (heapInsert h v).arr (h.size + 1) = v ::ₘ hmsA h.arr h.size := by
  have hnot : ¬ 10 ≤ h.size := by omega
  have hrw : heapInsert h v =
      { arr := siftUpAux (h.size + 1)
          (fun k => if k = h.size + 1 then v else h.arr k) (h.size + 1),
        size := h.size + 1 } := by
    simp only [heapInsert, if_neg hnot]
  rw [hrw]
  refine ⟨rfl, ?_, ?_⟩
  · refine siftUpAux_heapOrd (h.size + 1) (h.size + 1) _ (h.size + 1)
      (by omega) (le_refl _) (by omega) ⟨?_, ?_⟩
    · intro j hj2 hjn hjne
      have e1 : ¬ (j = h.size + 1) := by omega
      have e2 : ¬ (j / 2 = h.size + 1) := by omega
      simp only [if_neg e1, if_neg e2]
      exact hord j hj2 (by omega)
    · intro j hj2 hjn hjd
      omega
  · rw [siftUpAux_hmsA (h.size + 1) (h.size + 1) _ (h.size + 1) (by omega) (le_refl _)]
    rw [hmsA_eq_map, hmsA_eq_map, Multiset.range_succ, Multiset.map_cons]
    congr 1
    · simp
    · refine Multiset.map_congr rfl ?_
      intro k hk
      rw [Multiset.mem_range] at hk
      simp only [if_neg (by omega : ¬ (k + 1 = h.size + 1))]

/-- Full specification of `heapRemoveMin` on a non-empty heap: it returns the
root, the size shrinks by one, the heap ordering is preserved, and the old
multiset is the returned root plus the new multiset. -/
theorem heapRemoveMin_spec (h : HeapSt) (hord : heapOrd h.arr h.size)
    (hne : h.size ≠ 0) :
    (heapRemoveMin h).2 = h.arr 1 ∧
    (heapRemoveMin h).1.size = h.size - 1 ∧
    heapOrd (heapRemoveMin h).1.arr (h.size - 1) ∧
    hmsA h.arr h.size = h.arr 1 ::ₘ hmsA (heapRemoveMin h).1.arr (h.size - 1) := by
  have hrw : heapRemoveMin h =
      ({ arr := siftDownAux (h.size - 1)
            (fun k => if k = 1 then h.arr h.size else h.arr k) (h.size - 1) 1,
         size := h.size - 1 }, h.arr 1) := by
    simp only [heapRemoveMin, if_neg hne]
  rw [hrw]
  refine ⟨rfl, rfl, ?_, ?_⟩
  · refine siftDownAux_heapOrd (h.size - 1) _ (h.size - 1) 1
      (le_refl 1) (by omega) ⟨?_, ?_⟩
    · intro j hj2 hjsz hjd
      simp only [if_neg (by omega : ¬ (j / 2 = 1)), if_neg (by omega : ¬ (j = 1))]
      exact hord j hj2 (by omega)
    · intro j _ _ _ h21
      omega
  · rw [siftDownAux_hmsA (h.size - 1) _ (h.size - 1) 1 (le_refl 1)]
    rcases eq_or_lt_of_le (Nat.one_le_iff_ne_zero.2 hne) with h1 | h1
    · -- singleton heap
      rw [← h1]
      simp [hmsA_eq_map, Multiset.range_succ]
    · -- at least two elements
      have hsz1 : 1 ≤ h.size - 1 := by omega
      have h0mem : 0 ∈ Multiset.range (h.size - 1) := by
        rw [Multiset.mem_range]; omega
      have hdec : Multiset.range (h.size - 1) =
          0 ::ₘ (Multiset.range (h.size - 1)).erase 0 :=
        (Multiset.cons_erase h0mem).symm
      have hrest :
          Multiset.map (fun k => (fun j => if j = 1 then h.arr h.size else h.arr j) (k + 1))
              ((Multiset.range (h.size - 1)).erase 0) =
          Multiset.map (fun k => h.arr (k + 1)) ((Multiset.range (h.size - 1)).erase 0) := by
        refine Multiset.map_congr rfl ?_
        intro k hk
        have hk2 := (Multiset.Nodup.mem_erase_iff (Multiset.nodup_range _)).1 hk
        simp only [if_neg (by omega : ¬ (k + 1 = 1))]
      have e1 : hmsA h.arr h.size =
          h.arr h.size ::ₘ hmsA h.arr (h.size - 1) := by
        rw [hmsA_eq_map, hmsA_eq_map]
        have hs : h.size = (h.size - 1) + 1 := by omega
        rw [hs, Multiset.range_succ, Multiset.map_cons, Nat.add_sub_cancel]
      have e2 : hmsA (fun j => if j = 1 then h.arr h.size else h.arr j) (h.size - 1) =
          h.arr h.size ::ₘ
            Multiset.map (fun k => h.arr (k + 1)) ((Multiset.range (h.size - 1)).erase 0) := by
        rw [hmsA_eq_map]
        nth_rewrite 1 [hdec]
        rw [Multiset.map_cons, hrest]
        congr 1
      have e3 : hmsA h.arr (h.size - 1) =
          h.arr 1 ::ₘ
            Multiset.map (fun k => h.arr (k + 1)) ((Multiset.range (h.size - 1)).erase 0) := by
        rw [hmsA_eq_map]
        nth_rewrite 1 [hdec]
        rw [Multiset.map_cons]
      rw [e1, e2, e3, Multiset.cons_swap]

/-! ### Circular waiting queue (waitQ / waitFront / waitRear / waitCount) -/

structure QueueSt where
  arr : Int → Int
  front : Int
  rear : Int
  count : Nat

/-- `enqueueWait`: fails when the queue holds `WAIT_CAP = 10` cars, otherwise
appends at `(waitRear + 1) % WAIT_CAP` (resetting `waitFront` when the queue
was empty). -/
def enqueueWait (q : QueueSt) (car : Int) : QueueSt × Bool :=
  if q.count = 10 then (q, false)
  else
    let rear := (q.rear + 1) % 10
    let arr := fun k => if k = rear then car else q.arr k
    let front := if q.count = 0 then rear else q.front
    ({ arr := arr, front := front, rear := rear, count := q.count + 1 }, true)

/-- `dequeueWait`: returns `-1` on an empty queue, otherwise removes the front
car, resetting `waitFront = 0, waitRear = -1` when the queue becomes empty. -/
def dequeueWait (q : QueueSt) : QueueSt × Int :=
  if q.count = 0 then (q, -1)
  else
    let c := q.arr q.front
    let front := (q.front + 1) % 10
    let count := q.count - 1
    if count = 0 then ({ q with front := 0, rear := -1, count := 0 }, c)
    else ({ q with front := front, count := count }, c)

/-- The FIFO contents of the circular queue, front first (this is exactly the
traversal performed by `showWaitingQueue`). -/
def waitList (q : QueueSt) : List Int :=
  (List.range q.count).map fun k : Nat => q.arr ((q.front + (k : Int)) % 10)

/-- Well-formedness of the circular queue indices, as maintained by the
program: `waitRear` points to the last occupied cell when non-empty, and the
empty queue is kept in the reset configuration `front = 0, rear = -1`. -/
def QWF (q : QueueSt) : Prop :=
  q.count ≤ 10 ∧
  (q.count = 0 → q.front = 0 ∧ q.rear = -1) ∧
  (0 < q.count → 0 ≤ q.front ∧ q.front < 10 ∧
    q.rear = (q.front + (q.count : Int) - 1) % 10)

theorem waitList_length (q : QueueSt) : (waitList q).length = q.count := by
  rw [waitList, List.length_map, List.length_range]

theorem enqueueWait_spec (q : QueueSt) (car : Int) (hwf : QWF q)
    (hlt : q.count < 10) :
    (enqueueWait q car).2 = true ∧ QWF (enqueueWait q car).1 ∧
    (enqueueWait q car).1.count = q.count + 1 ∧
    waitList (enqueueWait q car).1 = waitList q ++ [car] := by
  have hne : ¬ (q.count = 10) := by omega
  have hrw : enqueueWait q car =
      ({ arr := fun k => if k = (q.rear + 1) % 10 then car else q.arr k,
         front := if q.count = 0 then (q.rear + 1) % 10 else q.front,
         rear := (q.rear + 1) % 10,
         count := q.count + 1 }, true) := by
    simp only [enqueueWait, if_neg hne]
  have hR : (q.rear + 1) % 10 = (q.front + (q.count : Int)) % 10 := by
    rcases Nat.eq_zero_or_pos q.count with h0 | hpos
    · have hfr := hwf.2.1 h0
      rw [hfr.1, hfr.2, h0]
      norm_num
    · rw [(hwf.2.2 hpos).2.2]
      omega
  have hcint : (0 : Int) ≤ (q.count : Int) ∧ (q.count : Int) < 10 := by
    constructor
    · exact_mod_cast Nat.zero_le q.count
    · exact_mod_cast hlt
  have hfr10 : 0 ≤ q.front ∧ q.front < 10 := by
    rcases Nat.eq_zero_or_pos q.count with h0 | hpos
    · have hfr := hwf.2.1 h0
      rw [hfr.1]; omega
    · exact ⟨(hwf.2.2 hpos).1, (hwf.2.2 hpos).2.1⟩
  have hfront : (enqueueWait q car).1.front = q.front % 10 := by
    rw [hrw]
    rcases Nat.eq_zero_or_pos q.count with h0 | hpos
    · show (if q.count = 0 then (q.rear + 1) % 10 else q.front) = q.front % 10
      rw [if_pos h0, hR, h0]
      push_cast
      omega
    · show (if q.count = 0 then (q.rear + 1) % 10 else q.front) = q.front % 10
      rw [if_neg (by omega : ¬ (q.count = 0))]
      omega
  have hfront' : (enqueueWait q car).1.front = q.front := by
    rw [hfront]; omega
  refine ⟨by rw [hrw], ?_, by rw [hrw], ?_⟩
  · refine ⟨?_, ?_, ?_⟩
    · show (enqueueWait q car).1.count ≤ 10
      rw [hrw]; show q.count + 1 ≤ 10; omega
    · intro hc
      rw [hrw] at hc
      exact absurd hc (Nat.succ_ne_zero _)
    · intro _
      rw [hfront']
      refine ⟨hfr10.1, hfr10.2, ?_⟩
      show (enqueueWait q car).1.rear =
        (q.front + ((enqueueWait q car).1.count : Int) - 1) % 10
      rw [hrw]
      show (q.rear + 1) % 10 = (q.front + ((q.count + 1 : Nat) : Int) - 1) % 10
      rw [hR]
      push_cast
      omega
  · have hcount : (enqueueWait q car).1.count = q.count + 1 := by rw [hrw]
    have harr : (enqueueWait q car).1.arr =
        fun k => if k = (q.rear + 1) % 10 then car else q.arr k := by rw [hrw]
    rw [waitList, hcount, hfront', harr, List.range_succ, List.map_append,
        List.map_cons, List.map_nil, waitList]
    congr 1
    · refine List.map_congr_left ?_
      intro k hk
      rw [List.mem_range] at hk
      have hk10 : (k : Int) < 10 := by exact_mod_cast lt_trans hk hlt
      have hkc : (k : Int) < (q.count : Int) := by exact_mod_cast hk
      have hk0 : (0 : Int) ≤ (k : Int) := by exact_mod_cast Nat.zero_le k
      have hkne : ¬ ((q.front + (k : Int)) % 10 = (q.rear + 1) % 10) := by
        rw [hR]
        omega
      simp only [if_neg hkne]
    · have hpos : (q.front + ((q.count : Nat) : Int)) % 10 = (q.rear + 1) % 10 := hR.symm
      simp only [if_pos hpos]

theorem dequeueWait_spec (q : QueueSt) (hwf : QWF q) (hpos : 0 < q.count) :
    (dequeueWait q).2 = q.arr q.front ∧ QWF (dequeueWait q).1 ∧
    (dequeueWait q).1.count = q.count - 1 ∧
    waitList q = (dequeueWait q).2 :: waitList (dequeueWait q).1 ∧
    (dequeueWait q).1.arr = q.arr := by
  have hne : ¬ (q.count = 0) := by omega
  have hf := hwf.2.2 hpos
  have hfront0 : (q.front + ((0 : Nat) : Int)) % 10 = q.front := by
    push_cast
    omega
  rcases Nat.lt_or_ge q.count 2 with h1 | h2
  · -- the queue becomes empty and is reset
    have hc1 : q.count = 1 := by omega
    have hz : q.count - 1 = 0 := by omega
    have hrw : dequeueWait q =
        ({ q with front := 0, rear := -1, count := 0 }, q.arr q.front) := by
      simp only [dequeueWait, if_neg hne, hz]
      norm_num
    rw [hrw]
    refine ⟨rfl, ⟨Nat.zero_le 10, fun _ => ⟨rfl, rfl⟩,
      fun hc => (Nat.lt_irrefl 0 hc).elim⟩, by show (0 : Nat) = q.count - 1; omega,
      ?_, rfl⟩
    rw [waitList, waitList]
    show (List.range q.count).map (fun k : Nat => q.arr ((q.front + (k : Int)) % 10)) =
      q.arr q.front :: (List.range 0).map (fun k : Nat => q.arr ((0 + (k : Int)) % 10))
    rw [hc1]
    simp only [List.range_succ, List.range_zero, List.map_nil, List.nil_append,
      List.map_append, List.map_cons]
    rw [hfront0]
  · -- the queue stays non-empty; only the front index advances
    have hz : ¬ (q.count - 1 = 0) := by omega
    have hrw : dequeueWait q =
        ({ q with front := (q.front + 1) % 10, count := q.count - 1 },
          q.arr q.front) := by
      simp only [dequeueWait, if_neg hne, if_neg hz]
    rw [hrw]
    refine ⟨rfl, ?_, rfl, ?_, rfl⟩
    · refine ⟨by have h10 := hwf.1; show q.count - 1 ≤ 10; omega,
        fun hc => absurd hc hz, ?_⟩
      intro _
      refine ⟨by show (0 : Int) ≤ (q.front + 1) % 10; omega,
        by show (q.front + 1) % 10 < 10; omega, ?_⟩
      show q.rear = ((q.front + 1) % 10 + ((q.count - 1 : Nat) : Int) - 1) % 10
      rw [hf.2.2]
      have hcast : ((q.count - 1 : Nat) : Int) = (q.count : Int) - 1 := by
        have := Nat.cast_sub (by omega : 1 ≤ q.count) (R := Int)
        rw [this]
        norm_num
      rw [hcast]
      omega
    · have hsucc : q.count = (q.count - 1) + 1 := by omega
      rw [waitList]
      show (List.range q.count).map _ = _
      nth_rewrite 1 [hsucc]
      rw [List.range_succ_eq_map, List.map_cons, List.map_map]
      rw [hfront0]
      congr 1
      rw [waitList]
      refine List.map_congr_left ?_
      intro k hk
      simp only [Function.comp_apply]
      show q.arr ((q.front + ((k + 1 : Nat) : Int)) % 10) =
        q.arr (((q.front + 1) % 10 + (k : Int)) % 10)
      congr 1
      push_cast
      omega

/-! ### Parking data structures and history list -/

/-- A history record (struct `Node`): `exitTime = 0` means still open. -/
structure HNode where
  car : Int
  slot : Int
  entryTime : Int
  exitTime : Int
deriving DecidableEq

/-- `addHistoryNode`: prepends a record to the head of the history list
(the C code links the new node in front of `history`). -/
def addHistoryNode (h : List HNode) (car slot entry exitT : Int) : List HNode :=
  { car := car, slot := slot, entryTime := entry, exitTime := exitT } :: h

/-- The history-update scan in `vehicleExit`: walks from the head (most recent
first) and sets `exitTime` on the first open record matching `(car, slot)`. -/
def closeHist : List HNode → Int → Int → Int → List HNode
  | [], _, _, _ => []
  | n :: rest, car, slot, exitT =>
      if n.car = car ∧ n.slot = slot ∧ n.exitTime = 0 then
        { n with exitTime := exitT } :: rest
      else n :: closeHist rest car slot exitT

/-- The whole mutable state of the program.  `slotOfCar` uses the program's
encoding: `-1` not present, `-2` waiting, `1..10` the occupied slot. -/
structure State where
  heap : HeapSt
  queue : QueueSt
  slotOfCar : Int → Int
  entryTimeOfCar : Int → Int
  passUser : Int → Int
  slotToCar : Int → Int
  history : List HNode
  totalRevenue : Int

/-- The heap produced by `heapSize = 0` followed by `heapInsert(i)` for
`i = 1..MAX_SLOTS`, on top of whatever array contents were there before
(used by both `initSystem` and `emergencyMode`). -/
def resetHeap (a : Nat → Int) : HeapSt :=
  (List.range 10).foldl (fun h (i : Nat) => heapInsert h ((i : Int) + 1))
    { arr := a, size := 0 }

/-- `initSystem`: the state after start-up (globals are zero-initialised, then
`initSystem` fills the heap with `1..10`, sets `slotOfCar` to `-1` and
`slotToCar[0..10]` to `-1`, and resets the queue indices). -/
def initSystem : State :=
  { heap := resetHeap fun _ => 0
    queue := { arr := fun _ => 0, front := 0, rear := -1, count := 0 }
    slotOfCar := fun c => if 0 ≤ c ∧ c < 100 then -1 else 0
    entryTimeOfCar := fun _ => 0
    passUser := fun _ => 0
    slotToCar := fun s => if 0 ≤ s ∧ s ≤ 10 then -1 else 0
    history := []
    totalRevenue := 0 }

/-- `emergencyMode`: clears car statuses and timestamps, empties the slot map,
rebuilds the free heap and resets the queue; `passUser`, `totalRevenue` and
`history` are kept as-is. -/
def emergencyMode (st : State) : State :=
  { st with
    slotOfCar := fun c => if 0 ≤ c ∧ c < 100 then -1 else st.slotOfCar c
    entryTimeOfCar := fun c => if 0 ≤ c ∧ c < 100 then 0 else st.entryTimeOfCar c
    slotToCar := fun s => if 1 ≤ s ∧ s ≤ 10 then -1 else st.slotToCar s
    heap := resetHeap st.heap.arr
    queue := { st.queue with front := 0, rear := -1, count := 0 } }

/-- `addMonthlyPass`: validates the id range and sets the pass flag to 1. -/
def addMonthlyPass (st : State) (car : Int) : State :=
  if car < 0 ∨ 100 ≤ car then st
  else { st with passUser := fun c => if c = car then 1 else st.passUser c }

/-- `canEnter`: id in range, not already parked (`slotOfCar >= 1`) and not
already waiting (`slotOfCar == -2`). -/
def canEnter (st : State) (car : Int) : Bool :=
  if car < 0 ∨ 100 ≤ car then false
  else if 1 ≤ st.slotOfCar car then false
  else if st.slotOfCar car = -2 then false
  else true

/-- Structured outcome of `vehicleEntry` (the C function reports it by
printing; the three rejection cases are the prints of `canEnter`). -/
inductive EntryRes where
  | invalidId
  | duplicateParked
  | duplicateWaiting
  | facilityFull
  | waitJoinFailed
  | queuedAt (pos : Nat)
  | parkedAt (slot : Int)
deriving DecidableEq

/-- `vehicleEntry`, parametrised by the car id read from input and the
timestamp `now = time(NULL)`. -/
def vehicleEntry (st : State) (car : Int) (now : Int) : State × EntryRes :=
  if car < 0 ∨ 100 ≤ car then (st, .invalidId)
  else if 1 ≤ st.slotOfCar car then (st, .duplicateParked)
  else if st.slotOfCar car = -2 then (st, .duplicateWaiting)
  else
    let p := heapRemoveMin st.heap
    let st1 := { st with heap := p.1 }
    if p.2 = -1 then
      if st1.queue.count = 10 then (st1, .facilityFull)
      else
        let q := enqueueWait st1.queue car
        if q.2 = false then (st1, .waitJoinFailed)
        else
          ({ st1 with
              queue := q.1,
              slotOfCar := fun c => if c = car then -2 else st1.slotOfCar c },
           .queuedAt q.1.count)
    else
      ({ st1 with
          slotOfCar := fun c => if c = car then p.2 else st1.slotOfCar c,
          entryTimeOfCar := fun c => if c = car then now else st1.entryTimeOfCar c,
          slotToCar := fun s => if s = p.2 then car else st1.slotToCar s,
          history := addHistoryNode st1.history car p.2 now 0 },
       .parkedAt p.2)

/-- Structured outcome of `vehicleExit`.  `exited` carries the vacated slot,
the fee, and the promoted `(car, slot)` pair when a waiting car was served. -/
inductive ExitRes where
  | invalidId
  | notParked
  | removedFromQueue
  | notInQueue
  | exited (slot fee : Int) (promoted : Option (Int × Int))
deriving DecidableEq

/-- The drain loop of the waiting-vehicle branch of `vehicleExit`: dequeues
`origCount` times, clearing `slotOfCar` when the car is found and otherwise
collecting the survivors in `tmp` in order. -/
def drainLoop (car : Int) :
    Nat → QueueSt → (Int → Int) → List Int → Bool →
    QueueSt × ((Int → Int) × (List Int × Bool))
  | 0, q, soc, tmp, removed => (q, soc, tmp, removed)
  | n + 1, q, soc, tmp, removed =>
      let p := dequeueWait q
      if p.2 = car then
        drainLoop car n p.1 (fun c => if c = car then -1 else soc c) tmp true
      else drainLoop car n p.1 soc (tmp ++ [p.2]) removed

/-- The refill loop: re-enqueues the survivors in order. -/
def refillLoop (q : QueueSt) (tmp : List Int) : QueueSt :=
  tmp.foldl (fun q w => (enqueueWait q w).1) q

/-- `vehicleExit`, parametrised by the car id and the two timestamps the C
code samples (`now` at the exit and `now2` at the promotion). -/
def vehicleExit (st : State) (car : Int) (now now2 : Int) : State × ExitRes :=
  if car < 0 ∨ 100 ≤ car then (st, .invalidId)
  else if st.slotOfCar car = -1 then (st, .notParked)
  else if st.slotOfCar car = -2 then
    let d := drainLoop car st.queue.count st.queue st.slotOfCar [] false
    let st1 := { st with queue := refillLoop d.1 d.2.2.1, slotOfCar := d.2.1 }
    if d.2.2.2 then (st1, .removedFromQueue) else (st1, .notInQueue)
  else
    let slot := st.slotOfCar car
    let entry := st.entryTimeOfCar car
    let diff : Int := if now - entry < 0 then 0 else now - entry
    let secs := diff
    let charged0 := (secs + 3599) / 3600
    let charged := if charged0 < 0 then 0 else charged0
    let fee := if st.passUser car ≠ 0 then 0 else charged * 50
    let rev := st.totalRevenue + fee
    let hist := closeHist st.history car slot now
    let soc := fun c => if c = car then -1 else st.slotOfCar c
    let etc := fun c => if c = car then 0 else st.entryTimeOfCar c
    let stc := fun s => if s = slot then -1 else st.slotToCar s
    let h1 := heapInsert st.heap slot
    if 0 < st.queue.count then
      let dq := dequeueWait st.queue
      let next := dq.2
      if 0 ≤ next ∧ next < 100 then
        let p2 := heapRemoveMin h1
        if p2.2 = -1 then
          ({ st with
              heap := p2.1, queue := (enqueueWait dq.1 next).1,
              slotOfCar := soc, entryTimeOfCar := etc, slotToCar := stc,
              history := hist, totalRevenue := rev },
           .exited slot fee none)
        else
          ({ st with
              heap := p2.1, queue := dq.1,
              slotOfCar := fun c => if c = next then p2.2 else soc c,
              entryTimeOfCar := fun c => if c = next then now2 else etc c,
              slotToCar := fun s => if s = p2.2 then next else stc s,
              history := addHistoryNode hist next p2.2 now2 0,
              totalRevenue := rev },
           .exited slot fee (some (next, p2.2)))
      else
        ({ st with
            heap := h1, queue := dq.1, slotOfCar := soc,
            entryTimeOfCar := etc, slotToCar := stc, history := hist,
            totalRevenue := rev },
         .exited slot fee none)
    else
      ({ st with
          heap := h1, slotOfCar := soc, entryTimeOfCar := etc,
          slotToCar := stc, history := hist, totalRevenue := rev },
       .exited slot fee none)

/-- The slot numbers `1..10` in order (the loop bounds used throughout). -/
def slots10 : List Int := (List.range 10).map fun i : Nat => (i : Int) + 1

/-- The free-slot listing of `showFreeSlots`: slots `1..10` whose `slotToCar`
entry is `-1`, in increasing order. -/
def freeList (st : State) : List Int :=
  slots10.filter fun s => st.slotToCar s == -1

/-- States reachable from start-up through the state-changing operations
(the queries `showSlotMap`, `searchCar`, `showParkedVehicles`,
`showWaitingQueue`, `showRevenue`, `showHistory`, `showFreeSlots` only read
the state, so they do not appear). -/
inductive Reachable : State → Prop where
  | init : Reachable initSystem
  | entry (s : State) (car now : Int) :
      Reachable s → Reachable (vehicleEntry s car now).1
  | exit (s : State) (car now now2 : Int) :
      Reachable s → Reachable (vehicleExit s car now now2).1
  | pass (s : State) (car : Int) :
      Reachable s → Reachable (addMonthlyPass s car)
  | emergency (s : State) :
      Reachable s → Reachable (emergencyMode s)

/-! ### Basic facts about the derived views -/

theorem mem_slots10 (x : Int) : x ∈ slots10 ↔ 1 ≤ x ∧ x ≤ 10 := by
  rw [slots10]
  simp only [List.mem_map, List.mem_range]
  constructor
  · rintro ⟨i, hi, rfl⟩
    have : (i : Int) < 10 := by exact_mod_cast hi
    have : (0 : Int) ≤ (i : Int) := by exact_mod_cast Nat.zero_le i
    omega
  · rintro ⟨h1, h2⟩
    refine ⟨(x - 1).toNat, ?_, ?_⟩
    · omega
    · rw [Int.toNat_of_nonneg (by omega)]
      omega

theorem slots10_nodup : slots10.Nodup := by decide

theorem mem_freeList (st : State) (s : Int) :
    s ∈ freeList st ↔ 1 ≤ s ∧ s ≤ 10 ∧ st.slotToCar s = -1 := by
  rw [freeList, List.mem_filter, mem_slots10, beq_iff_eq]
  tauto

/-- Pointwise update of the occupancy map at one slot, seen on the filtered
free list: if the update frees `slot`, the free multiset gains exactly it. -/
theorem freeFilter_update (l : List Int) (f g : Int → Int) (slot : Int)
    (hnd : l.Nodup) (hmem : slot ∈ l)
    (hagree : ∀ x ∈ l, x ≠ slot → f x = g x)
    (hf : f slot = -1) (hg : g slot ≠ -1) :
    ((l.filter fun s => f s == -1 : List Int) : Multiset Int) =
      slot ::ₘ ((l.filter fun s => g s == -1 : List Int) : Multiset Int) := by
  induction l with
  | nil => cases hmem
  | cons x xs ih =>
    have hndtl : xs.Nodup := (List.nodup_cons.1 hnd).2
    have hagtl : ∀ y ∈ xs, y ≠ slot → f y = g y := fun y hy =>
      hagree y (List.mem_cons_of_mem _ hy)
    rcases eq_or_ne slot x with hx | hx
    · subst hx
      have hxs : slot ∉ xs := (List.nodup_cons.1 hnd).1
      have hfx : (f slot == -1) = true := by rw [beq_iff_eq]; exact hf
      have hgx : ¬ ((g slot == -1) = true) := by
        rw [beq_iff_eq]; exact hg
      rw [List.filter_cons, List.filter_cons, if_pos hfx, if_neg hgx]
      have hcong : xs.filter (fun s => f s == -1) = xs.filter (fun s => g s == -1) := by
        refine List.filter_congr ?_
        intro y hy
        rw [hagree y (List.mem_cons_of_mem _ hy) (fun hc => hxs (hc ▸ hy))]
      rw [hcong, Multiset.cons_coe]
    · have hmem' : slot ∈ xs := by
        rcases List.mem_cons.1 hmem with h | h
        · exact absurd h hx
        · exact h
      have hfg : f x = g x := hagree x (List.mem_cons_self x xs) (Ne.symm hx)
      have ihx := ih hndtl hmem' hagtl
      by_cases hcond : (f x == -1) = true
      · have hcond' : (g x == -1) = true := by rw [← hfg]; exact hcond
        rw [List.filter_cons, List.filter_cons, if_pos hcond, if_pos hcond',
            ← Multiset.cons_coe, ← Multiset.cons_coe, ihx, Multiset.cons_swap]
      · have hcond' : ¬ ((g x == -1) = true) := by rw [← hfg]; exact hcond
        rw [List.filter_cons, List.filter_cons, if_neg hcond, if_neg hcond', ihx]

theorem heapRemoveMin_empty (h : HeapSt) (hsz : h.size = 0) :
    heapRemoveMin h = (h, -1) := by
  simp only [heapRemoveMin, if_pos hsz]

theorem heapInsert_emptyHeap (h : HeapSt) (v : Int) (hsz : h.size = 0) :
    heapInsert h v = { arr := fun k => if k = 1 then v else h.arr k, size := 1 } := by
  obtain ⟨arr, size⟩ := h
  simp only at hsz
  subst hsz
  rfl

theorem heapRemoveMin_single (h : HeapSt) (hsz : h.size = 1) :
    heapRemoveMin h =
      ({ arr := fun k => if k = 1 then h.arr 1 else h.arr k, size := 0 }, h.arr 1) := by
  obtain ⟨arr, size⟩ := h
  simp only at hsz
  subst hsz
  rfl

/-- The heap built by inserting `1..k` in order into an empty heap. -/
theorem resetHeap_aux (a : Nat → Int) :
    ∀ k, k ≤ 10 →
      ((List.range k).foldl (fun h (i : Nat) => heapInsert h ((i : Int) + 1))
          { arr := a, size := 0 }).size = k ∧
      heapOrd ((List.range k).foldl (fun h (i : Nat) => heapInsert h ((i : Int) + 1))
          { arr := a, size := 0 }).arr k ∧
      hmsA ((List.range k).foldl (fun h (i : Nat) => heapInsert h ((i : Int) + 1))
          { arr := a, size := 0 }).arr k =
        (((List.range k).map fun i : Nat => (i : Int) + 1 : List Int) : Multiset Int) := by
  intro k
  induction k with
  | zero =>
    intro _
    refine ⟨rfl, ?_, rfl⟩
    intro i h2 h0
    omega
  | succ k ih =>
    intro hk
    obtain ⟨hsz, hord, hms⟩ := ih (by omega)
    set H := (List.range k).foldl (fun h (i : Nat) => heapInsert h ((i : Int) + 1))
      { arr := a, size := 0 } with hH
    have hfold : (List.range (k + 1)).foldl (fun h (i : Nat) => heapInsert h ((i : Int) + 1))
        { arr := a, size := 0 } = heapInsert H ((k : Int) + 1) := by
      rw [List.range_succ, List.foldl_append, List.foldl_cons, List.foldl_nil]
    have hord' : heapOrd H.arr H.size := by rw [hsz]; exact hord
    have hlt : H.size < 10 := by rw [hsz]; omega
    obtain ⟨s1, s2, s3⟩ := heapInsert_spec H ((k : Int) + 1) hord' hlt
    rw [hfold]
    refine ⟨by rw [s1, hsz], ?_, ?_⟩
    · rw [hsz] at s2
      exact s2
    · rw [hsz] at s3
      rw [s3, hms, List.range_succ, List.map_append, List.map_cons, List.map_nil,
          Multiset.cons_coe]
      exact Multiset.coe_eq_coe.2 (List.perm_append_singleton _ _).symm

theorem resetHeap_spec (a : Nat → Int) :
    (resetHeap a).size = 10 ∧ heapOrd (resetHeap a).arr (resetHeap a).size ∧
    hmsA (resetHeap a).arr (resetHeap a).size = (slots10 : Multiset Int) := by
  obtain ⟨h1, h2, h3⟩ := resetHeap_aux a 10 (le_refl 10)
  rw [resetHeap]
  refine ⟨h1, ?_, ?_⟩
  · rw [h1]; exact h2
  · rw [h1]; exact h3

/-- The drain loop of the waiting-removal branch, run over the full queue
contents: it empties the queue (leaving the reset indices), clears `slotOfCar`
at the removed car (when found), collects the survivors in order, and reports
whether the car was found. -/
theorem drainLoop_spec (car : Int) :
    ∀ (L : List Int) (q : QueueSt) (soc : Int → Int) (tmp : List Int) (removed : Bool),
      QWF q → waitList q = L →
      (drainLoop car L.length q soc tmp removed).1.arr = q.arr ∧
      (drainLoop car L.length q soc tmp removed).1.front = 0 ∧
      (drainLoop car L.length q soc tmp removed).1.rear = -1 ∧
      (drainLoop car L.length q soc tmp removed).1.count = 0 ∧
      (drainLoop car L.length q soc tmp removed).2.1 =
        (if car ∈ L then (fun c => if c = car then -1 else soc c) else soc) ∧
      (drainLoop car L.length q soc tmp removed).2.2.1 =
        tmp ++ L.filter (fun w => w ≠ car) ∧
      (drainLoop car L.length q soc tmp removed).2.2.2 = (removed || decide (car ∈ L)) := by
  intro L
  induction L with
  | nil =>
    intro q soc tmp removed hwf hL
    have hc : q.count = 0 := by rw [← waitList_length q, hL]; rfl
    have hfr := hwf.2.1 hc
    exact ⟨rfl, hfr.1, hfr.2, hc, by simp [drainLoop], by simp [drainLoop],
      by simp [drainLoop]⟩
  | cons x L' ih =>
    intro q soc tmp removed hwf hL
    have hpos : 0 < q.count := by
      rw [← waitList_length q, hL]
      simp
    obtain ⟨hd2, hdwf, hdcount, hdlist, hdarr⟩ := dequeueWait_spec q hwf hpos
    rw [hL] at hdlist
    have hx2 : (dequeueWait q).2 = x := (List.cons.injEq _ _ _ _ ▸ hdlist.symm).1
    have hxL : waitList (dequeueWait q).1 = L' := (List.cons.injEq _ _ _ _ ▸ hdlist.symm).2
    have hupd : (fun c => if c = car then (-1 : Int) else
        (if c = car then (-1 : Int) else soc c)) = fun c => if c = car then -1 else soc c := by
      funext c
      by_cases hc : c = car <;> simp [hc]
    show (drainLoop car (L'.length + 1) q soc tmp removed).1.arr = q.arr ∧ _
    simp only [drainLoop, hx2]
    by_cases hxc : x = car
    · rw [if_pos hxc]
      obtain ⟨i1, i2, i3, i4, i5, i6, i7⟩ :=
        ih (dequeueWait q).1 (fun c => if c = car then -1 else soc c) tmp true hdwf hxL
      refine ⟨by rw [i1, hdarr], i2, i3, i4, ?_, ?_, ?_⟩
      · rw [i5]
        have hmem : car ∈ x :: L' := by rw [hxc]; exact List.mem_cons_self _ _
        rw [if_pos hmem]
        by_cases hL' : car ∈ L'
        · rw [if_pos hL', hupd]
        · rw [if_neg hL']
      · rw [i6]
        have : ((x :: L').filter fun w => w ≠ car) = L'.filter fun w => w ≠ car := by
          rw [List.filter_cons]
          simp [hxc]
        rw [this]
      · rw [i7]
        have hmem : car ∈ x :: L' := by rw [hxc]; exact List.mem_cons_self _ _
        simp [hmem]
    · rw [if_neg hxc]
      obtain ⟨i1, i2, i3, i4, i5, i6, i7⟩ :=
        ih (dequeueWait q).1 soc (tmp ++ [x]) removed hdwf hxL
      have hmemiff : (car ∈ x :: L') ↔ (car ∈ L') := by
        simp [List.mem_cons, Ne.symm hxc]
      refine ⟨by rw [i1, hdarr], i2, i3, i4, ?_, ?_, ?_⟩
      · rw [i5]
        by_cases hL' : car ∈ L'
        · rw [if_pos hL', if_pos (hmemiff.2 hL')]
        · rw [if_neg hL', if_neg (fun hc => hL' (hmemiff.1 hc))]
      · rw [i6]
        have : ((x :: L').filter fun w => w ≠ car) = x :: (L'.filter fun w => w ≠ car) := by
          rw [List.filter_cons]
          simp [hxc]
        rw [this, List.append_assoc]
        rfl
      · rw [i7, decide_eq_decide.2 hmemiff]

/-- The refill loop restores a FIFO queue holding the survivors after the
drained prefix, provided capacity suffices. -/
theorem refillLoop_spec :
    ∀ (tmp : List Int) (q : QueueSt), QWF q → q.count + tmp.length ≤ 10 →
      QWF (refillLoop q tmp) ∧
      (refillLoop q tmp).count = q.count + tmp.length ∧
      waitList (refillLoop q tmp) = waitList q ++ tmp := by
  intro tmp
  induction tmp with
  | nil =>
    intro q hwf _
    exact ⟨hwf, by simp [refillLoop], by simp [refillLoop]⟩
  | cons w ws ih =>
    intro q hwf hlen
    have hlt : q.count < 10 := by
      rw [List.length_cons] at hlen
      omega
    obtain ⟨e1, ewf, ecount, elist⟩ := enqueueWait_spec q w hwf hlt
    have hstep : refillLoop q (w :: ws) = refillLoop (enqueueWait q w).1 ws := rfl
    rw [hstep]
    obtain ⟨iwf, icount, ilist⟩ := ih (enqueueWait q w).1 ewf
      (by rw [ecount, List.length_cons] at *; omega)
    refine ⟨iwf, ?_, ?_⟩
    · rw [icount, ecount, List.length_cons]
      omega
    · rw [ilist, elist, List.append_assoc]
      rfl

/-! ### Behavioural characterisation of the operations, path by path -/

/-- The fee computed by the parked branch of `vehicleExit`: elapsed seconds
clamped at zero, charged hours `(secs + 3599) / 3600`, fee zero for pass
holders and `chargedHours * FEE_PER_HOUR` otherwise. -/
def exitFee (st : State) (car now : Int) : Int :=
  let entry := st.entryTimeOfCar car
  let diff : Int := if now - entry < 0 then 0 else now - entry
  let secs := diff
  let charged0 := (secs + 3599) / 3600
  let charged := if charged0 < 0 then 0 else charged0
  if st.passUser car ≠ 0 then 0 else charged * 50

theorem vehicleEntry_invalid (st : State) (car now : Int) (h : car < 0 ∨ 100 ≤ car) :
    vehicleEntry st car now = (st, .invalidId) := by
  simp only [vehicleEntry, if_pos h]

theorem vehicleEntry_dupParked (st : State) (car now : Int)
    (h : ¬ (car < 0 ∨ 100 ≤ car)) (hp : 1 ≤ st.slotOfCar car) :
    vehicleEntry st car now = (st, .duplicateParked) := by
  simp only [vehicleEntry, if_neg h, if_pos hp]

theorem vehicleEntry_dupWaiting (st : State) (car now : Int)
    (h : ¬ (car < 0 ∨ 100 ≤ car)) (hw : st.slotOfCar car = -2) :
    vehicleEntry st car now = (st, .duplicateWaiting) := by
  have hnp : ¬ (1 ≤ st.slotOfCar car) := by omega
  simp only [vehicleEntry, if_neg h, if_neg hnp, if_pos hw]

theorem vehicleExit_invalid (st : State) (car now now2 : Int)
    (h : car < 0 ∨ 100 ≤ car) :
    vehicleExit st car now now2 = (st, .invalidId) := by
  simp only [vehicleExit, if_pos h]

theorem vehicleExit_notParked (st : State) (car now now2 : Int)
    (h : ¬ (car < 0 ∨ 100 ≤ car)) (ha : st.slotOfCar car = -1) :
    vehicleExit st car now now2 = (st, .notParked) := by
  simp only [vehicleExit, if_neg h, if_pos ha]

theorem vehicleEntry_full_queueFull (st : State) (car now : Int)
    (h : ¬ (car < 0 ∨ 100 ≤ car)) (hnp : ¬ (1 ≤ st.slotOfCar car))
    (hnw : ¬ (st.slotOfCar car = -2)) (hsz : st.heap.size = 0)
    (hq : st.queue.count = 10) :
    vehicleEntry st car now = (st, .facilityFull) := by
  simp only [vehicleEntry, if_neg h, if_neg hnp, if_neg hnw,
    heapRemoveMin_empty st.heap hsz, hq]
  rfl

theorem vehicleEntry_enqueues (st : State) (car now : Int)
    (h : ¬ (car < 0 ∨ 100 ≤ car)) (hnp : ¬ (1 ≤ st.slotOfCar car))
    (hnw : ¬ (st.slotOfCar car = -2)) (hsz : st.heap.size = 0)
    (hwf : QWF st.queue) (hcount : st.queue.count < 10) :
    vehicleEntry st car now =
      ({ st with
          queue := (enqueueWait st.queue car).1,
          slotOfCar := fun c => if c = car then -2 else st.slotOfCar c },
       .queuedAt (st.queue.count + 1)) := by
  have hq : ¬ (st.queue.count = 10) := by omega
  obtain ⟨e2, ewf, ecount, elist⟩ := enqueueWait_spec st.queue car hwf hcount
  simp only [vehicleEntry, if_neg h, if_neg hnp, if_neg hnw,
    heapRemoveMin_empty st.heap hsz, if_neg hq, e2, ecount]
  rfl

theorem vehicleEntry_parks_eq (st : State) (car now : Int)
    (h : ¬ (car < 0 ∨ 100 ≤ car)) (hnp : ¬ (1 ≤ st.slotOfCar car))
    (hnw : ¬ (st.slotOfCar car = -2))
    (hne : ¬ ((heapRemoveMin st.heap).2 = -1)) :
    vehicleEntry st car now =
      ({ st with
          heap := (heapRemoveMin st.heap).1,
          slotOfCar := fun c =>
            if c = car then (heapRemoveMin st.heap).2 else st.slotOfCar c,
          entryTimeOfCar := fun c => if c = car then now else st.entryTimeOfCar c,
          slotToCar := fun s =>
            if s = (heapRemoveMin st.heap).2 then car else st.slotToCar s,
          history := addHistoryNode st.history car (heapRemoveMin st.heap).2 now 0 },
       .parkedAt (heapRemoveMin st.heap).2) := by
  simp only [vehicleEntry, if_neg h, if_neg hnp, if_neg hnw, if_neg hne]

theorem vehicleExit_waiting_eq (st : State) (car now now2 : Int)
    (h : ¬ (car < 0 ∨ 100 ≤ car)) (hw : st.slotOfCar car = -2) :
    vehicleExit st car now now2 =
      (let d := drainLoop car st.queue.count st.queue st.slotOfCar [] false
       if d.2.2.2 then
         ({ st with queue := refillLoop d.1 d.2.2.1, slotOfCar := d.2.1 },
          .removedFromQueue)
       else
         ({ st with queue := refillLoop d.1 d.2.2.1, slotOfCar := d.2.1 },
          .notInQueue)) := by
  have hne : ¬ (st.slotOfCar car = -1) := by omega
  simp only [vehicleExit, if_neg h, if_neg hne, if_pos hw]

theorem vehicleExit_parked_noqueue_eq (st : State) (car now now2 : Int)
    (h : ¬ (car < 0 ∨ 100 ≤ car)) (hp : 1 ≤ st.slotOfCar car)
    (hq : st.queue.count = 0) :
    vehicleExit st car now now2 =
      ({ st with
          heap := heapInsert st.heap (st.slotOfCar car),
          slotOfCar := fun c => if c = car then -1 else st.slotOfCar c,
          entryTimeOfCar := fun c => if c = car then 0 else st.entryTimeOfCar c,
          slotToCar := fun s => if s = st.slotOfCar car then -1 else st.slotToCar s,
          history := closeHist st.history car (st.slotOfCar car) now,
          totalRevenue := st.totalRevenue + exitFee st car now },
       .exited (st.slotOfCar car) (exitFee st car now) none) := by
  have hne1 : ¬ (st.slotOfCar car = -1) := by omega
  have hne2 : ¬ (st.slotOfCar car = -2) := by omega
  have hq' : ¬ (0 < st.queue.count) := by omega
  simp only [vehicleExit, if_neg h, if_neg hne1, if_neg hne2, if_neg hq', exitFee]

theorem vehicleExit_parked_promote (st : State) (car now now2 : Int)
    (h : ¬ (car < 0 ∨ 100 ≤ car)) (hp : 1 ≤ st.slotOfCar car)
    (hq : 0 < st.queue.count) (hsz : st.heap.size = 0)
    (hnext0 : 0 ≤ (dequeueWait st.queue).2) (hnext1 : (dequeueWait st.queue).2 < 100) :
    (vehicleExit st car now now2).2 =
      .exited (st.slotOfCar car) (exitFee st car now)
        (some ((dequeueWait st.queue).2, st.slotOfCar car)) ∧
    (vehicleExit st car now now2).1.heap.size = 0 ∧
    (vehicleExit st car now now2).1.queue = (dequeueWait st.queue).1 ∧
    (vehicleExit st car now now2).1.slotOfCar = (fun c =>
      if c = (dequeueWait st.queue).2 then st.slotOfCar car
      else if c = car then -1 else st.slotOfCar c) ∧
    (vehicleExit st car now now2).1.entryTimeOfCar = (fun c =>
      if c = (dequeueWait st.queue).2 then now2
      else if c = car then 0 else st.entryTimeOfCar c) ∧
    (vehicleExit st car now now2).1.slotToCar = (fun s =>
      if s = st.slotOfCar car then (dequeueWait st.queue).2
      else if s = st.slotOfCar car then -1 else st.slotToCar s) ∧
    (vehicleExit st car now now2).1.history =
      addHistoryNode (closeHist st.history car (st.slotOfCar car) now)
        (dequeueWait st.queue).2 (st.slotOfCar car) now2 0 ∧
    (vehicleExit st car now now2).1.totalRevenue = st.totalRevenue + exitFee st car now ∧
    (vehicleExit st car now now2).1.passUser = st.passUser := by
  have hne1 : ¬ (st.slotOfCar car = -1) := by omega
  have hne2 : ¬ (st.slotOfCar car = -2) := by omega
  have hins := heapInsert_emptyHeap st.heap (st.slotOfCar car) hsz
  have hrm := heapRemoveMin_single
    { arr := fun k => if k = 1 then st.slotOfCar car else st.heap.arr k, size := 1 } rfl
  have hred : ((fun k : Nat => if k = 1 then st.slotOfCar car else st.heap.arr k) 1) =
      st.slotOfCar car := if_pos rfl
  have hnext : 0 ≤ (dequeueWait st.queue).2 ∧ (dequeueWait st.queue).2 < 100 :=
    ⟨hnext0, hnext1⟩
  simp only [vehicleExit, if_neg h, if_neg hne1, if_neg hne2, if_pos hq, hins, hrm,
    hred, eq_self_iff_true, if_true, if_neg hne1, if_pos hnext, exitFee]
  exact ⟨trivial, trivial, trivial, trivial, trivial, trivial, trivial, trivial, trivial⟩

/-! ### The global invariant over reachable states -/

/-- All the consistency facts the program maintains across operations:
the heap is well-formed and holds exactly the free slots; the circular queue
is well-formed and its members are exactly the in-range cars marked waiting
(each at most once); the queue is only non-empty when the facility is full;
per-car slot codes are meaningful; and `slotOfCar` / `slotToCar` form a
bijection between parked cars and occupied slots. -/
def Inv (st : State) : Prop :=
  heapOrd st.heap.arr st.heap.size ∧
  st.heap.size ≤ 10 ∧
  hmsA st.heap.arr st.heap.size = (freeList st : Multiset Int) ∧
  QWF st.queue ∧
  (∀ w ∈ waitList st.queue, 0 ≤ w ∧ w < 100 ∧ st.slotOfCar w = -2) ∧
  (∀ c : Int, 0 ≤ c → c < 100 → st.slotOfCar c = -2 → c ∈ waitList st.queue) ∧
  (waitList st.queue).Nodup ∧
  (0 < st.queue.count → st.heap.size = 0) ∧
  (∀ c : Int, 0 ≤ c → c < 100 →
    st.slotOfCar c = -1 ∨ st.slotOfCar c = -2 ∨
      (1 ≤ st.slotOfCar c ∧ st.slotOfCar c ≤ 10)) ∧
  (∀ c : Int, 0 ≤ c → c < 100 → 1 ≤ st.slotOfCar c →
    st.slotToCar (st.slotOfCar c) = c) ∧
  (∀ s : Int, 1 ≤ s → s ≤ 10 → st.slotToCar s ≠ -1 →
    0 ≤ st.slotToCar s ∧ st.slotToCar s < 100 ∧ st.slotOfCar (st.slotToCar s) = s)

theorem heapMs_card (a : Nat → Int) (n : Nat) : Multiset.card (hmsA a n) = n := by
  rw [hmsA_eq_map, Multiset.card_map, Multiset.card_range]

theorem inv_size_eq (st : State) (hinv : Inv st) :
    st.heap.size = (freeList st).length := by
  have h := congrArg Multiset.card hinv.2.2.1
  rwa [heapMs_card, Multiset.coe_card] at h

theorem inv_heap_mem (st : State) (hinv : Inv st) (x : Int)
    (hx : x ∈ hmsA st.heap.arr st.heap.size) :
    1 ≤ x ∧ x ≤ 10 ∧ st.slotToCar x = -1 := by
  rw [hinv.2.2.1, Multiset.mem_coe, mem_freeList] at hx
  exact hx

theorem inv_removeMin_pos (st : State) (hinv : Inv st) (hne : st.heap.size ≠ 0) :
    1 ≤ (heapRemoveMin st.heap).2 ∧ (heapRemoveMin st.heap).2 ≤ 10 ∧
    st.slotToCar (heapRemoveMin st.heap).2 = -1 := by
  obtain ⟨r1, _, _, _⟩ := heapRemoveMin_spec st.heap hinv.1 hne
  rw [r1]
  exact inv_heap_mem st hinv _
    (hmsA_mem st.heap.arr st.heap.size 1 (by omega) (by omega))

theorem inv_removeMin_neg (st : State) (hinv : Inv st)
    (h : (heapRemoveMin st.heap).2 = -1) : st.heap.size = 0 := by
  by_contra hne
  have hx := inv_removeMin_pos st hinv hne
  omega

/-- The slot a parked car occupies is itself occupied, so the free list misses
at least one of the ten slots. -/
theorem inv_size_lt (st : State) (hinv : Inv st) (car : Int)
    (h0 : 0 ≤ car) (h1 : car < 100) (hp : 1 ≤ st.slotOfCar car)
    (hp10 : st.slotOfCar car ≤ 10) : st.heap.size < 10 := by
  have hocc : st.slotToCar (st.slotOfCar car) = car :=
    hinv.2.2.2.2.2.2.2.2.2.1 car h0 h1 hp
  have hmemslot : st.slotOfCar car ∈ slots10 := (mem_slots10 _).2 ⟨hp, hp10⟩
  have hnotfree : ¬ ((fun s => st.slotToCar s == -1) (st.slotOfCar car) = true) := by
    simp only [beq_iff_eq, hocc]
    omega
  rw [inv_size_eq st hinv, freeList]
  have hlt := List.length_filter_lt_length_iff_exists
    (l := slots10) (p := fun s => st.slotToCar s == -1)
  rw [show slots10.length = 10 from rfl] at hlt
  exact hlt.2 ⟨st.slotOfCar car, hmemslot, hnotfree⟩

theorem inv_pass (st : State) (car : Int) (hinv : Inv st) :
    Inv (addMonthlyPass st car) := by
  rw [addMonthlyPass]
  split_ifs with h
  · exact hinv
  · exact hinv

theorem inv_emergency (st : State) : Inv (emergencyMode st) := by
  obtain ⟨hrs, hro, hrm⟩ := resetHeap_spec st.heap.arr
  have hfree : freeList (emergencyMode st) = slots10 := by
    rw [freeList, List.filter_eq_self]
    intro s hs
    have hb := (mem_slots10 s).1 hs
    show ((emergencyMode st).slotToCar s == -1) = true
    rw [beq_iff_eq]
    show (if 1 ≤ s ∧ s ≤ 10 then (-1 : Int) else st.slotToCar s) = -1
    rw [if_pos ⟨hb.1, hb.2⟩]
  have hq0 : (emergencyMode st).queue.count = 0 := rfl
  have hql : waitList (emergencyMode st).queue = [] := by
    rw [waitList, hq0]
    rfl
  refine ⟨?_, ?_, ?_, ?_, ?_, ?_, ?_, ?_, ?_, ?_, ?_⟩
  · show heapOrd (resetHeap st.heap.arr).arr (resetHeap st.heap.arr).size
    exact hro
  · show (resetHeap st.heap.arr).size ≤ 10
    omega
  · show hmsA (resetHeap st.heap.arr).arr (resetHeap st.heap.arr).size = _
    rw [hrm, hfree]
  · exact ⟨by rw [hq0]; omega, fun _ => ⟨rfl, rfl⟩,
      fun hc => absurd hc (by rw [hq0]; omega)⟩
  · intro w hw
    rw [hql] at hw
    exact absurd hw (List.not_mem_nil w)
  · intro c h0 h1 hc
    have : (if 0 ≤ c ∧ c < 100 then (-1 : Int) else st.slotOfCar c) = -2 := hc
    rw [if_pos ⟨h0, by omega⟩] at this
    omega
  · rw [hql]
    exact List.nodup_nil
  · intro hc
    exact absurd hc (by rw [hq0]; omega)
  · intro c h0 h1
    show (if 0 ≤ c ∧ c < 100 then (-1 : Int) else st.slotOfCar c) = -1 ∨ _
    rw [if_pos ⟨h0, by omega⟩]
    left
    rfl
  · intro c h0 h1 hc
    have : (if 0 ≤ c ∧ c < 100 then (-1 : Int) else st.slotOfCar c) = _ := rfl
    rw [show (emergencyMode st).slotOfCar c =
      (if 0 ≤ c ∧ c < 100 then (-1 : Int) else st.slotOfCar c) from rfl,
      if_pos ⟨h0, by omega⟩] at hc
    omega
  · intro s hs1 hs10 hne
    exact absurd (show (emergencyMode st).slotToCar s = -1 by
      show (if 1 ≤ s ∧ s ≤ 10 then (-1 : Int) else st.slotToCar s) = -1
      rw [if_pos ⟨hs1, hs10⟩]) hne

theorem inv_init : Inv initSystem := by
  obtain ⟨hrs, hro, hrm⟩ := resetHeap_spec (fun _ => 0)
  have hfree : freeList initSystem = slots10 := by
    rw [freeList, List.filter_eq_self]
    intro s hs
    have hb := (mem_slots10 s).1 hs
    show (initSystem.slotToCar s == -1) = true
    rw [beq_iff_eq]
    show (if 0 ≤ s ∧ s ≤ 10 then (-1 : Int) else 0) = -1
    rw [if_pos ⟨by omega, hb.2⟩]
  have hq0 : initSystem.queue.count = 0 := rfl
  have hql : waitList initSystem.queue = [] := by
    rw [waitList, hq0]
    rfl
  refine ⟨?_, ?_, ?_, ?_, ?_, ?_, ?_, ?_, ?_, ?_, ?_⟩
  · exact hro
  · show (resetHeap fun _ => 0).size ≤ 10
    omega
  · show hmsA (resetHeap fun _ => 0).arr (resetHeap fun _ => 0).size = _
    rw [hrm, hfree]
  · exact ⟨by rw [hq0]; omega, fun _ => ⟨rfl, rfl⟩,
      fun hc => absurd hc (by rw [hq0]; omega)⟩
  · intro w hw
    rw [hql] at hw
    exact absurd hw (List.not_mem_nil w)
  · intro c h0 h1 hc
    have : (if 0 ≤ c ∧ c < 100 then (-1 : Int) else 0) = -2 := hc
    rw [if_pos ⟨h0, h1⟩] at this
    omega
  · rw [hql]
    exact List.nodup_nil
  · intro hc
    exact absurd hc (by rw [hq0]; omega)
  · intro c h0 h1
    show (if 0 ≤ c ∧ c < 100 then (-1 : Int) else 0) = -1 ∨ _
    rw [if_pos ⟨h0, h1⟩]
    left
    rfl
  · intro c h0 h1 hc
    rw [show initSystem.slotOfCar c =
      (if 0 ≤ c ∧ c < 100 then (-1 : Int) else 0) from rfl,
      if_pos ⟨h0, h1⟩] at hc
    omega
  · intro s hs1 hs10 hne
    exact absurd (show initSystem.slotToCar s = -1 by
      show (if 0 ≤ s ∧ s ≤ 10 then (-1 : Int) else 0) = -1
      rw [if_pos ⟨by omega, hs10⟩]) hne

theorem inv_entry (st : State) (car now : Int) (hinv : Inv st) :
    Inv (vehicleEntry st car now).1 := by
  by_cases h : car < 0 ∨ 100 ≤ car
  · rw [vehicleEntry_invalid st car now h]
    exact hinv
  · by_cases hp : 1 ≤ st.slotOfCar car
    · rw [vehicleEntry_dupParked st car now h hp]
      exact hinv
    · by_cases hw : st.slotOfCar car = -2
      · rw [vehicleEntry_dupWaiting st car now h hw]
        exact hinv
      · have hinv' := hinv
        obtain ⟨hord, hsz10, hms, hwf, hwmem, hwrev, hnd, hqe, hvals, hbij1, hbij2⟩ :=
          hinv'
        by_cases hsz : st.heap.size = 0
        · by_cases hq10 : st.queue.count = 10
          · rw [vehicleEntry_full_queueFull st car now h hp hw hsz hq10]
            exact hinv
          · have hcount : st.queue.count < 10 := by
              have h10 := hwf.1
              omega
            rw [vehicleEntry_enqueues st car now h hp hw hsz hwf hcount]
            obtain ⟨e2, ewf, ecount, elist⟩ := enqueueWait_spec st.queue car hwf hcount
            refine ⟨hord, hsz10, hms, ewf, ?_, ?_, ?_, ?_, ?_, ?_, ?_⟩
            · intro w hwl
              have hwl' : w ∈ waitList st.queue ++ [car] := by
                rw [← elist]
                exact hwl
              rcases List.mem_append.1 hwl' with hold | hnew
              · obtain ⟨hb0, hb1, hbs⟩ := hwmem w hold
                refine ⟨hb0, hb1, ?_⟩
                show (if w = car then (-2 : Int) else st.slotOfCar w) = -2
                split_ifs with hwc
                · rfl
                · exact hbs
              · have hwc : w = car := by simpa using hnew
                subst hwc
                refine ⟨by omega, by omega, ?_⟩
                show (if w = w then (-2 : Int) else st.slotOfCar w) = -2
                rw [if_pos rfl]
            · intro c h0 h1 hc
              show c ∈ waitList (enqueueWait st.queue car).1
              rw [elist]
              rcases eq_or_ne c car with hcc | hcc
              · subst hcc
                exact List.mem_append.2 (Or.inr (by simp))
              · have hc2 : st.slotOfCar c = -2 := by
                  have hc' : (if c = car then (-2 : Int) else st.slotOfCar c) = -2 := hc
                  rwa [if_neg hcc] at hc'
                exact List.mem_append.2 (Or.inl (hwrev c h0 h1 hc2))
            · show (waitList (enqueueWait st.queue car).1).Nodup
              rw [elist, List.nodup_append]
              refine ⟨hnd, List.nodup_singleton car, ?_⟩
              intro a ha hb
              have ha2 := (hwmem a ha).2.2
              have hac : a = car := by simpa using hb
              rw [hac] at ha2
              exact hw ha2
            · intro _
              exact hsz
            · intro c h0 h1
              dsimp only
              split_ifs with hcc
              · right
                left
                rfl
              · exact hvals c h0 h1
            · intro c h0 h1 hc
              dsimp only at hc ⊢
              split_ifs at hc ⊢ with hcc
              · exact absurd hc (by omega)
              · exact hbij1 c h0 h1 hc
            · intro s hs1 hs10 hne
              dsimp only at hne ⊢
              obtain ⟨hb0, hb1, hbs⟩ := hbij2 s hs1 hs10 hne
              refine ⟨hb0, hb1, ?_⟩
              split_ifs with hcc
              · rw [hcc] at hbs
                exact absurd (by omega : 1 ≤ st.slotOfCar car) hp
              · exact hbs
        · -- heap non-empty: the car parks at the heap minimum
          have hmpos := inv_removeMin_pos st hinv hsz
          have hne : ¬ ((heapRemoveMin st.heap).2 = -1) := by omega
          rw [vehicleEntry_parks_eq st car now h hp hw hne]
          obtain ⟨hr1, hrsz, hrord, hrms⟩ := heapRemoveMin_spec st.heap hord hsz
          rw [← hr1] at hrms
          have hgslot : (if (heapRemoveMin st.heap).2 = (heapRemoveMin st.heap).2
              then car else st.slotToCar (heapRemoveMin st.heap).2) ≠ -1 := by
            rw [if_pos rfl]
            omega
          have hfl : ((freeList st : List Int) : Multiset Int) =
              (heapRemoveMin st.heap).2 ::ₘ
                ((slots10.filter fun s =>
                  (if s = (heapRemoveMin st.heap).2 then car else st.slotToCar s) == -1 :
                    List Int) : Multiset Int) := by
            refine freeFilter_update slots10 st.slotToCar _ _ slots10_nodup
              ((mem_slots10 _).2 ⟨hmpos.1, hmpos.2.1⟩) ?_ hmpos.2.2 hgslot
            intro x hx hxne
            rw [if_neg hxne]
          refine ⟨?_, ?_, ?_, hwf, ?_, ?_, hnd, ?_, ?_, ?_, ?_⟩
          · show heapOrd (heapRemoveMin st.heap).1.arr (heapRemoveMin st.heap).1.size
            rw [hrsz]
            exact hrord
          · show (heapRemoveMin st.heap).1.size ≤ 10
            omega
          · show hmsA (heapRemoveMin st.heap).1.arr (heapRemoveMin st.heap).1.size = _
            rw [hrsz]
            have hcomb : (heapRemoveMin st.heap).2 ::ₘ
                hmsA (heapRemoveMin st.heap).1.arr (st.heap.size - 1) =
                (heapRemoveMin st.heap).2 ::ₘ
                  ((slots10.filter fun s =>
                    (if s = (heapRemoveMin st.heap).2 then car else st.slotToCar s) == -1 :
                      List Int) : Multiset Int) := by
              rw [← hrms, hms]
              exact hfl
            exact (Multiset.cons_inj_right _).1 hcomb
          · intro w hwl
            obtain ⟨hb0, hb1, hbs⟩ := hwmem w hwl
            refine ⟨hb0, hb1, ?_⟩
            show (if w = car then (heapRemoveMin st.heap).2 else st.slotOfCar w) = -2
            have hwcar : w ≠ car := by
              intro hcv
              rw [hcv] at hbs
              exact hw hbs
            rw [if_neg hwcar]
            exact hbs
          · intro c h0 h1 hc
            have hc' : (if c = car then (heapRemoveMin st.heap).2 else st.slotOfCar c)
                = -2 := hc
            rcases eq_or_ne c car with hcc | hcc
            · rw [if_pos hcc] at hc'
              omega
            · rw [if_neg hcc] at hc'
              exact hwrev c h0 h1 hc'
          · intro hc
            exact absurd (hqe hc) hsz
          · intro c h0 h1
            dsimp only
            split_ifs with hcc
            · right
              right
              exact ⟨hmpos.1, hmpos.2.1⟩
            · exact hvals c h0 h1
          · intro c h0 h1 hc
            show (if (if c = car then (heapRemoveMin st.heap).2 else st.slotOfCar c) =
                (heapRemoveMin st.heap).2 then car
                else st.slotToCar
                  (if c = car then (heapRemoveMin st.heap).2 else st.slotOfCar c)) = c
            have hc' : (1 : Int) ≤
                (if c = car then (heapRemoveMin st.heap).2 else st.slotOfCar c) := hc
            rcases eq_or_ne c car with hcc | hcc
            · rw [if_pos hcc, if_pos rfl]
              exact hcc.symm
            · rw [if_neg hcc] at hc'
              have hold := hbij1 c h0 h1 hc'
              have hsne : st.slotOfCar c ≠ (heapRemoveMin st.heap).2 := by
                intro hcs
                rw [hcs, hmpos.2.2] at hold
                omega
              rw [if_neg hcc, if_neg hsne]
              exact hold
          · intro s hs1 hs10 hne2
            have hne2' : (if s = (heapRemoveMin st.heap).2 then car
                else st.slotToCar s) ≠ -1 := hne2
            show 0 ≤ (if s = (heapRemoveMin st.heap).2 then car else st.slotToCar s) ∧
              (if s = (heapRemoveMin st.heap).2 then car else st.slotToCar s) < 100 ∧
              (if (if s = (heapRemoveMin st.heap).2 then car else st.slotToCar s) = car
                then (heapRemoveMin st.heap).2
                else st.slotOfCar
                  (if s = (heapRemoveMin st.heap).2 then car else st.slotToCar s)) = s
            by_cases hss : s = (heapRemoveMin st.heap).2
            · rw [if_pos hss, if_pos rfl]
              exact ⟨by omega, by omega, hss.symm⟩
            · rw [if_neg hss] at hne2' ⊢
              obtain ⟨hb0, hb1, hbs⟩ := hbij2 s hs1 hs10 hne2'
              refine ⟨hb0, hb1, ?_⟩
              have hcne : st.slotToCar s ≠ car := by
                intro hcc
                rw [hcc] at hbs
                omega
              rw [if_neg hcne]
              exact hbs

theorem inv_exit (st : State) (car now now2 : Int) (hinv : Inv st) :
    Inv (vehicleExit st car now now2).1 := by
  by_cases h : car < 0 ∨ 100 ≤ car
  · rw [vehicleExit_invalid st car now now2 h]
    exact hinv
  · by_cases ha : st.slotOfCar car = -1
    · rw [vehicleExit_notParked st car now now2 h ha]
      exact hinv
    · have hinv' := hinv
      obtain ⟨hord, hsz10, hms, hwf, hwmem, hwrev, hnd, hqe, hvals, hbij1, hbij2⟩ := hinv'
      by_cases hwt : st.slotOfCar car = -2
      · -- the car is waiting: it is drained out of the queue
        have hstate : (vehicleExit st car now now2).1 =
            { st with
                queue := refillLoop
                  (drainLoop car st.queue.count st.queue st.slotOfCar [] false).1
                  (drainLoop car st.queue.count st.queue st.slotOfCar [] false).2.2.1,
                slotOfCar :=
                  (drainLoop car st.queue.count st.queue st.slotOfCar [] false).2.1 } := by
          rw [vehicleExit_waiting_eq st car now now2 h hwt]
          dsimp only
          split_ifs with hrem <;> rfl
        have hlen : st.queue.count = (waitList st.queue).length :=
          (waitList_length st.queue).symm
        obtain ⟨d1, d2, d3, d4, d5, d6, d7⟩ :=
          drainLoop_spec car (waitList st.queue) st.queue st.slotOfCar [] false hwf rfl
        rw [← hlen] at d1 d2 d3 d4 d5 d6 d7
        have hcarmem : car ∈ waitList st.queue := hwrev car (by omega) (by omega) hwt
        have hsoc : (drainLoop car st.queue.count st.queue st.slotOfCar [] false).2.1 =
            fun c => if c = car then -1 else st.slotOfCar c := by
          rw [d5, if_pos hcarmem]
        have htmp : (drainLoop car st.queue.count st.queue st.slotOfCar [] false).2.2.1 =
            (waitList st.queue).filter fun w => w ≠ car := by
          rw [d6, List.nil_append]
        have hq0wf : QWF (drainLoop car st.queue.count st.queue st.slotOfCar [] false).1 :=
          ⟨by rw [d4]; omega, fun _ => ⟨d2, d3⟩, fun hc => absurd hc (by rw [d4]; omega)⟩
        have hq0list :
            waitList (drainLoop car st.queue.count st.queue st.slotOfCar [] false).1 = [] := by
          rw [waitList, d4]
          rfl
        have hcap : (drainLoop car st.queue.count st.queue st.slotOfCar [] false).1.count +
            ((waitList st.queue).filter fun w => w ≠ car).length ≤ 10 := by
          rw [d4]
          have hfle := List.length_filter_le (fun w : Int => decide (w ≠ car))
            (waitList st.queue)
          have h10 := hwf.1
          rw [waitList_length] at hfle
          omega
        obtain ⟨rwf, rcount, rlist⟩ := refillLoop_spec
          ((waitList st.queue).filter fun w => w ≠ car)
          (drainLoop car st.queue.count st.queue st.slotOfCar [] false).1 hq0wf hcap
        rw [hq0list, List.nil_append] at rlist
        rw [d4] at rcount
        rw [hsoc, htmp] at hstate
        rw [hstate]
        refine ⟨hord, hsz10, hms, rwf, ?_, ?_, ?_, ?_, ?_, ?_, ?_⟩
        · intro w hwl
          dsimp only at hwl ⊢
          rw [rlist, List.mem_filter] at hwl
          obtain ⟨hwl1, hwl2⟩ := hwl
          have hwne : w ≠ car := by simpa using hwl2
          obtain ⟨hb0, hb1, hbs⟩ := hwmem w hwl1
          refine ⟨hb0, hb1, ?_⟩
          rw [if_neg hwne]
          exact hbs
        · intro c h0 h1 hc
          dsimp only at hc ⊢
          rcases eq_or_ne c car with hcc | hcc
          · rw [if_pos hcc] at hc
            omega
          · rw [if_neg hcc] at hc
            rw [rlist, List.mem_filter]
            exact ⟨hwrev c h0 h1 hc, by simpa using hcc⟩
        · dsimp only
          rw [rlist]
          exact hnd.filter _
        · intro hc
          dsimp only at hc ⊢
          rw [rcount] at hc
          have hall : 0 < (waitList st.queue).length := by
            have hfle := List.length_filter_le (fun w : Int => decide (w ≠ car))
              (waitList st.queue)
            omega
          rw [waitList_length] at hall
          exact hqe hall
        · intro c h0 h1
          dsimp only
          split_ifs with hcc
          · left
            rfl
          · exact hvals c h0 h1
        · intro c h0 h1 hc
          dsimp only at hc ⊢
          split_ifs at hc ⊢ with hcc
          · exact absurd hc (by omega)
          · exact hbij1 c h0 h1 hc
        · intro s hs1 hs10 hne2
          dsimp only at hne2 ⊢
          obtain ⟨hb0, hb1, hbs⟩ := hbij2 s hs1 hs10 hne2
          refine ⟨hb0, hb1, ?_⟩
          have hcne : st.slotToCar s ≠ car := by
            intro hcc
            rw [hcc, hwt] at hbs
            omega
          rw [if_neg hcne]
          exact hbs
      · -- the car is parked
        have hp : 1 ≤ st.slotOfCar car := by
          rcases hvals car (by omega) (by omega) with hv | hv | hv
          · exact absurd hv ha
          · exact absurd hv hwt
          · exact hv.1
        have hp10 : st.slotOfCar car ≤ 10 := by
          rcases hvals car (by omega) (by omega) with hv | hv | hv
          · exact absurd hv ha
          · exact absurd hv hwt
          · exact hv.2
        have hstc_car : st.slotToCar (st.slotOfCar car) = car :=
          hbij1 car (by omega) (by omega) hp
        by_cases hqpos : 0 < st.queue.count
        · -- promotion path
          have hsz : st.heap.size = 0 := hqe hqpos
          obtain ⟨hd2, hdwf, hdcount, hdlist, hdarr⟩ := dequeueWait_spec st.queue hwf hqpos
          have hnextmem : (dequeueWait st.queue).2 ∈ waitList st.queue := by
            rw [hdlist]
            exact List.mem_cons_self _ _
          obtain ⟨hnb0, hnb1, hn2⟩ := hwmem _ hnextmem
          obtain ⟨p_res, p_hsize, p_queue, p_soc, p_etc, p_stc, p_hist, p_rev, p_pass⟩ :=
            vehicleExit_parked_promote st car now now2 h hp hqpos hsz hnb0 hnb1
          have hnextcar : (dequeueWait st.queue).2 ≠ car := by
            intro hcv
            rw [hcv] at hn2
            omega
          have hfree0 : freeList st = [] := by
            have hcard := congrArg Multiset.card hms
            rw [heapMs_card, Multiset.coe_card, hsz] at hcard
            exact List.length_eq_zero.1 hcard.symm
          have hnofree : ∀ s ∈ slots10, ¬ (st.slotToCar s == -1) = true := by
            rw [freeList] at hfree0
            exact List.filter_eq_nil.1 hfree0
          have hndtail : (waitList (dequeueWait st.queue).1).Nodup ∧
              (dequeueWait st.queue).2 ∉ waitList (dequeueWait st.queue).1 := by
            rw [hdlist] at hnd
            exact ⟨(List.nodup_cons.1 hnd).2, (List.nodup_cons.1 hnd).1⟩
          refine ⟨?_, ?_, ?_, ?_, ?_, ?_, ?_, ?_, ?_, ?_, ?_⟩
          · rw [p_hsize]
            intro i h2 h0
            omega
          · rw [p_hsize]
            omega
          · rw [p_hsize]
            have hfreeN : (freeList (vehicleExit st car now now2).1 : List Int) = [] := by
              rw [freeList, List.filter_eq_nil]
              intro s hs
              rw [p_stc]
              dsimp only
              rw [beq_iff_eq]
              rcases eq_or_ne s (st.slotOfCar car) with hss | hss
              · rw [if_pos hss]
                omega
              · rw [if_neg hss, if_neg hss]
                have := hnofree s hs
                rw [beq_iff_eq] at this
                exact this
            rw [hfreeN]
            rfl
          · rw [p_queue]
            exact hdwf
          · intro w hwl
            rw [p_queue] at hwl
            have hwmem' : w ∈ waitList st.queue := by
              rw [hdlist]
              exact List.mem_cons_of_mem _ hwl
            obtain ⟨hb0, hb1, hbs⟩ := hwmem w hwmem'
            refine ⟨hb0, hb1, ?_⟩
            rw [p_soc]
            dsimp only
            have hwnext : w ≠ (dequeueWait st.queue).2 := by
              intro hcv
              rw [hcv] at hwl
              exact hndtail.2 hwl
            have hwcar : w ≠ car := by
              intro hcv
              rw [hcv] at hbs
              exact hwt hbs
            rw [if_neg hwnext, if_neg hwcar]
            exact hbs
          · intro c h0 h1 hc
            rw [p_soc] at hc
            dsimp only at hc
            rw [p_queue]
            rcases eq_or_ne c (dequeueWait st.queue).2 with hcn | hcn
            · rw [if_pos hcn] at hc
              omega
            · rw [if_neg hcn] at hc
              rcases eq_or_ne c car with hcc | hcc
              · rw [if_pos hcc] at hc
                omega
              · rw [if_neg hcc] at hc
                have := hwrev c h0 h1 hc
                rw [hdlist] at this
                rcases List.mem_cons.1 this with hx | hx
                · exact absurd hx hcn
                · exact hx
          · rw [p_queue]
            exact hndtail.1
          · intro _
            exact p_hsize
          · intro c h0 h1
            rw [p_soc]
            dsimp only
            split_ifs with hc1 hc2
            · right
              right
              exact ⟨hp, hp10⟩
            · left
              rfl
            · exact hvals c h0 h1
          · intro c h0 h1 hc
            rw [p_soc] at hc ⊢
            rw [p_stc]
            dsimp only at hc ⊢
            rcases eq_or_ne c (dequeueWait st.queue).2 with hcn | hcn
            · rw [if_pos hcn] at hc ⊢
              rw [if_pos rfl]
              exact hcn.symm
            · rw [if_neg hcn] at hc ⊢
              rcases eq_or_ne c car with hcc | hcc
              · rw [if_pos hcc] at hc
                exact absurd hc (by omega)
              · rw [if_neg hcc] at hc ⊢
                have hold := hbij1 c h0 h1 hc
                have hsne : st.slotOfCar c ≠ st.slotOfCar car := by
                  intro hcs
                  rw [hcs, hstc_car] at hold
                  exact hcc hold.symm
                rw [if_neg hsne, if_neg hsne]
                exact hold
          · intro s hs1 hs10 hne2
            rw [p_stc] at hne2 ⊢
            rw [p_soc]
            dsimp only at hne2 ⊢
            rcases eq_or_ne s (st.slotOfCar car) with hss | hss
            · rw [if_pos hss] at hne2 ⊢
              refine ⟨hnb0, hnb1, ?_⟩
              rw [if_pos rfl]
              exact hss.symm
            · rw [if_neg hss, if_neg hss] at hne2 ⊢
              obtain ⟨hb0, hb1, hbs⟩ := hbij2 s hs1 hs10 hne2
              refine ⟨hb0, hb1, ?_⟩
              have hcn : st.slotToCar s ≠ (dequeueWait st.queue).2 := by
                intro hcv
                rw [hcv, hn2] at hbs
                omega
              have hcc : st.slotToCar s ≠ car := by
                intro hcv
                rw [hcv] at hbs
                exact hss (hbs.symm ▸ rfl)
              rw [if_neg hcn, if_neg hcc]
              exact hbs
        · -- no promotion: the queue is empty
          have hq0 : st.queue.count = 0 := by omega
          rw [vehicleExit_parked_noqueue_eq st car now now2 h hp hq0]
          have hslt : st.heap.size < 10 :=
            inv_size_lt st hinv car (by omega) (by omega) hp hp10
          obtain ⟨i1, i2, i3⟩ := heapInsert_spec st.heap (st.slotOfCar car) hord hslt
          have hfl : ((slots10.filter fun s =>
              (if s = st.slotOfCar car then (-1 : Int) else st.slotToCar s) == -1 :
                List Int) : Multiset Int) =
              st.slotOfCar car ::ₘ ((freeList st : List Int) : Multiset Int) := by
            refine freeFilter_update slots10 _ st.slotToCar _ slots10_nodup
              ((mem_slots10 _).2 ⟨hp, hp10⟩) ?_ (if_pos rfl) ?_
            · intro x hx hxne
              rw [if_neg hxne]
            · rw [hstc_car]
              omega
          refine ⟨?_, ?_, ?_, hwf, ?_, ?_, hnd, ?_, ?_, ?_, ?_⟩
          · show heapOrd (heapInsert st.heap (st.slotOfCar car)).arr
              (heapInsert st.heap (st.slotOfCar car)).size
            rw [i1]
            exact i2
          · show (heapInsert st.heap (st.slotOfCar car)).size ≤ 10
            omega
          · show hmsA (heapInsert st.heap (st.slotOfCar car)).arr
              (heapInsert st.heap (st.slotOfCar car)).size = _
            rw [i1, i3, hms]
            exact hfl.symm
          · intro w hwl
            obtain ⟨hb0, hb1, hbs⟩ := hwmem w hwl
            refine ⟨hb0, hb1, ?_⟩
            show (if w = car then (-1 : Int) else st.slotOfCar w) = -2
            have hwcar : w ≠ car := by
              intro hcv
              rw [hcv] at hbs
              exact hwt hbs
            rw [if_neg hwcar]
            exact hbs
          · intro c h0 h1 hc
            have hc' : (if c = car then (-1 : Int) else st.slotOfCar c) = -2 := hc
            rcases eq_or_ne c car with hcc | hcc
            · rw [if_pos hcc] at hc'
              omega
            · rw [if_neg hcc] at hc'
              exact hwrev c h0 h1 hc'
          · intro hc
            exact absurd (show 0 < st.queue.count from hc) (by omega)
          · intro c h0 h1
            dsimp only
            split_ifs with hcc
            · left
              rfl
            · exact hvals c h0 h1
          · intro c h0 h1 hc
            show (if (if c = car then (-1 : Int) else st.slotOfCar c) = st.slotOfCar car
                then (-1 : Int)
                else st.slotToCar (if c = car then (-1 : Int) else st.slotOfCar c)) = c
            have hc' : (1 : Int) ≤ (if c = car then (-1 : Int) else st.slotOfCar c) := hc
            rcases eq_or_ne c car with hcc | hcc
            · rw [if_pos hcc] at hc'
              exact absurd hc' (by omega)
            · rw [if_neg hcc] at hc' ⊢
              have hold := hbij1 c h0 h1 hc'
              have hsne : st.slotOfCar c ≠ st.slotOfCar car := by
                intro hcs
                rw [hcs, hstc_car] at hold
                exact hcc hold.symm
              rw [if_neg hsne]
              exact hold
          · intro s hs1 hs10 hne2
            have hne2' : (if s = st.slotOfCar car then (-1 : Int) else st.slotToCar s)
                ≠ -1 := hne2
            show 0 ≤ (if s = st.slotOfCar car then (-1 : Int) else st.slotToCar s) ∧
              (if s = st.slotOfCar car then (-1 : Int) else st.slotToCar s) < 100 ∧
              (if (if s = st.slotOfCar car then (-1 : Int) else st.slotToCar s) = car
                then (-1 : Int)
                else st.slotOfCar
                  (if s = st.slotOfCar car then (-1 : Int) else st.slotToCar s)) = s
            rcases eq_or_ne s (st.slotOfCar car) with hss | hss
            · rw [if_pos hss] at hne2'
              exact absurd rfl hne2'
            · rw [if_neg hss] at hne2' ⊢
              obtain ⟨hb0, hb1, hbs⟩ := hbij2 s hs1 hs10 hne2'
              refine ⟨hb0, hb1, ?_⟩
              have hcne : st.slotToCar s ≠ car := by
                intro hcv
                rw [hcv] at hbs
                exact hss (by rw [← hbs])
              rw [if_neg hcne]
              exact hbs

/-- Every reachable state satisfies the global invariant. -/
theorem inv_reachable (st : State) (hre : Reachable st) : Inv st := by
  induction hre with
  | init => exact inv_init
  | entry s car now _ ih => exact inv_entry s car now ih
  | exit s car now now2 _ ih => exact inv_exit s car now now2 ih
  | pass s car _ ih => exact inv_pass s car ih
  | emergency s _ ih => exact inv_emergency s

/-! ### Fee arithmetic -/

/-- The C idiom `(secs + 3599) / 3600` computes the ceiling of `secs / 3600`
for non-negative `secs`. -/
theorem ceil_div_3600 (a : Int) (ha : 0 ≤ a) :
    (a + 3599) / 3600 = ⌈(a : ℚ) / 3600⌉ := by
  set q := (a + 3599) / 3600 with hqdef
  have hlow : (q - 1) * 3600 < a := by omega
  have hhigh : a ≤ q * 3600 := by omega
  symm
  rw [Int.ceil_eq_iff]
  constructor
  · rw [lt_div_iff (by norm_num : (0 : ℚ) < 3600)]
    calc ((q : ℚ) - 1) * 3600 = (((q - 1) * 3600 : Int) : ℚ) := by push_cast; ring
    _ < (a : ℚ) := by exact_mod_cast hlow
  · rw [div_le_iff (by norm_num : (0 : ℚ) < 3600)]
    calc (a : ℚ) ≤ (((q * 3600 : Int) : ℚ)) := by exact_mod_cast hhigh
    _ = (q : ℚ) * 3600 := by push_cast; ring

/-- `exitFee` written with the clamp as `max` and the charge as a rational
ceiling. -/
theorem exitFee_eq_ceil (st : State) (car now : Int) :
    exitFee st car now =
      if st.passUser car ≠ 0 then 0
      else ⌈((max (now - st.entryTimeOfCar car) 0 : Int) : ℚ) / 3600⌉ * 50 := by
  rw [exitFee]
  have hmax : (if now - st.entryTimeOfCar car < 0 then 0
      else now - st.entryTimeOfCar car) = max (now - st.entryTimeOfCar car) 0 := by
    rcases le_or_lt 0 (now - st.entryTimeOfCar car) with hle | hlt
    · rw [if_neg (not_lt.2 hle), max_eq_left hle]
    · rw [if_pos hlt, max_eq_right (le_of_lt hlt)]
  rw [hmax]
  have h0 : (0 : Int) ≤ max (now - st.entryTimeOfCar car) 0 := le_max_right _ _
  have hchpos : (0 : Int) ≤ (max (now - st.entryTimeOfCar car) 0 + 3599) / 3600 :=
    Int.ediv_nonneg (by omega) (by norm_num)
  rw [if_neg (not_lt.2 hchpos), ceil_div_3600 _ h0]

/-- Every parked exit (whatever the queue does afterwards) reports and adds
exactly `exitFee`. -/
theorem vehicleExit_parked_fee (st : State) (car now now2 : Int)
    (h : ¬ (car < 0 ∨ 100 ≤ car)) (hp : 1 ≤ st.slotOfCar car) :
    (∃ pr, (vehicleExit st car now now2).2 =
      .exited (st.slotOfCar car) (exitFee st car now) pr) ∧
    (vehicleExit st car now now2).1.totalRevenue =
      st.totalRevenue + exitFee st car now := by
  have hne1 : ¬ (st.slotOfCar car = -1) := by omega
  have hne2 : ¬ (st.slotOfCar car = -2) := by omega
  simp only [vehicleExit, if_neg h, if_neg hne1, if_neg hne2, exitFee]
  split_ifs <;> exact ⟨⟨_, rfl⟩, rfl⟩

/-! ### Claim theorems -/

/-- Claim C1: on every heap state (as established by initSystem or
emergencyMode and maintained by heapInsert and heapRemoveMin via the heap
ordering), heapRemoveMin removes and returns the minimum element when the
heap is non-empty, and returns -1 leaving the heap unchanged when it is
empty; consequently every vehicleEntry that parks a car assigns it the
smallest currently free slot. -/
theorem heap_min_spec :
    (∀ h : HeapSt, h.size = 0 → heapRemoveMin h = (h, -1)) ∧
    (∀ h : HeapSt, heapOrd h.arr h.size → h.size ≠ 0 →
      (heapRemoveMin h).2 ∈ heapList h ∧
      (∀ x ∈ heapList h, (heapRemoveMin h).2 ≤ x) ∧
      (heapList h : Multiset Int) =
        (heapRemoveMin h).2 ::ₘ (heapList (heapRemoveMin h).1 : Multiset Int) ∧
      heapOrd (heapRemoveMin h).1.arr (heapRemoveMin h).1.size) ∧
    (∀ (h : HeapSt) (v : Int), heapOrd h.arr h.size → h.size < 10 →
      heapOrd (heapInsert h v).arr (heapInsert h v).size ∧
      (heapList (heapInsert h v) : Multiset Int) = v ::ₘ (heapList h : Multiset Int)) ∧
    heapOrd initSystem.heap.arr initSystem.heap.size ∧
    (∀ st : State, heapOrd (emergencyMode st).heap.arr (emergencyMode st).heap.size) ∧
    (∀ (st : State) (car now s : Int), Reachable st →
      (vehicleEntry st car now).2 = .parkedAt s →
      (vehicleEntry st car now).1.slotOfCar car = s ∧
      s ∈ freeList st ∧ ∀ x ∈ freeList st, s ≤ x) := by
  refine ⟨heapRemoveMin_empty, ?_, ?_, ?_, ?_, ?_⟩
  · intro h hord hne
    obtain ⟨r1, rsz, rord, rms⟩ := heapRemoveMin_spec h hord hne
    rw [← r1] at rms
    refine ⟨?_, ?_, ?_, ?_⟩
    · rw [r1]
      exact Multiset.mem_coe.1 (hmsA_mem h.arr h.size 1 (by omega) (by omega))
    · intro x hx
      rw [r1]
      exact heapOrd_le_of_mem h.arr h.size hord x (Multiset.mem_coe.2 hx)
    · show hmsA h.arr h.size = _
      rw [rms]
      congr 1
      show hmsA (heapRemoveMin h).1.arr (h.size - 1) =
        hmsA (heapRemoveMin h).1.arr (heapRemoveMin h).1.size
      rw [rsz]
    · rw [rsz]
      exact rord
  · intro h v hord hlt
    obtain ⟨i1, i2, i3⟩ := heapInsert_spec h v hord hlt
    constructor
    · rw [i1]
      exact i2
    · show hmsA (heapInsert h v).arr (heapInsert h v).size = _
      rw [i1]
      exact i3
  · exact inv_init.1
  · intro st
    exact (inv_emergency st).1
  · intro st car now s hre hres
    have hinv := inv_reachable st hre
    have hinv' := hinv
    obtain ⟨hord, hsz10, hms, hwf, hwmem, hwrev, hnd, hqe, hvals, hbij1, hbij2⟩ := hinv'
    by_cases h : car < 0 ∨ 100 ≤ car
    · rw [vehicleEntry_invalid st car now h] at hres
      cases hres
    · by_cases hp : 1 ≤ st.slotOfCar car
      · rw [vehicleEntry_dupParked st car now h hp] at hres
        cases hres
      · by_cases hw : st.slotOfCar car = -2
        · rw [vehicleEntry_dupWaiting st car now h hw] at hres
          cases hres
        · by_cases hsz : st.heap.size = 0
          · by_cases hq10 : st.queue.count = 10
            · rw [vehicleEntry_full_queueFull st car now h hp hw hsz hq10] at hres
              cases hres
            · have hcount : st.queue.count < 10 := by
                have h10 := hwf.1
                omega
              rw [vehicleEntry_enqueues st car now h hp hw hsz hwf hcount] at hres
              cases hres
          · have hmpos := inv_removeMin_pos st hinv hsz
            have hne : ¬ ((heapRemoveMin st.heap).2 = -1) := by omega
            rw [vehicleEntry_parks_eq st car now h hp hw hne] at hres
            have hs : (heapRemoveMin st.heap).2 = s := by
              cases hres
              rfl
            obtain ⟨r1, rsz, rord, rms⟩ := heapRemoveMin_spec st.heap hord hsz
            have hsmem : s ∈ hmsA st.heap.arr st.heap.size := by
              rw [← hs, r1]
              exact hmsA_mem st.heap.arr st.heap.size 1 (by omega) (by omega)
            refine ⟨?_, ?_, ?_⟩
            · rw [vehicleEntry_parks_eq st car now h hp hw hne]
              show (if car = car then (heapRemoveMin st.heap).2
                else st.slotOfCar car) = s
              rw [if_pos rfl]
              exact hs
            · rw [← Multiset.mem_coe, ← hms]
              exact hsmem
            · intro x hx
              rw [← hs, r1]
              exact heapOrd_le_of_mem st.heap.arr st.heap.size hord x
                (by rw [hms]; exact Multiset.mem_coe.2 hx)

/-- The occupancy maps form a bijection between occupied slots and parked
vehicles. -/
def OccBij (st : State) : Prop :=
  (∀ s : Int, 1 ≤ s → s ≤ 10 → st.slotToCar s ≠ -1 →
    0 ≤ st.slotToCar s ∧ st.slotToCar s < 100 ∧ st.slotOfCar (st.slotToCar s) = s) ∧
  (∀ c : Int, 0 ≤ c → c < 100 → 1 ≤ st.slotOfCar c →
    st.slotOfCar c ≤ 10 ∧ st.slotToCar (st.slotOfCar c) = c) ∧
  (∀ s t : Int, 1 ≤ s → s ≤ 10 → 1 ≤ t → t ≤ 10 → st.slotToCar s ≠ -1 →
    st.slotToCar s = st.slotToCar t → s = t)

/-- Claim C2: in every state reachable from initSystem by the service
operations (the read-only queries do not change the state), slotToCar and
slotOfCar agree: an occupied slot points to an in-range car that points back,
a parked car points to a slot that points back, and no two distinct slots
hold the same car. -/
theorem occupancy_bijection (st : State) (hre : Reachable st) : OccBij st := by
  have hinv := inv_reachable st hre
  obtain ⟨hord, hsz10, hms, hwf, hwmem, hwrev, hnd, hqe, hvals, hbij1, hbij2⟩ := hinv
  refine ⟨hbij2, ?_, ?_⟩
  · intro c h0 h1 hp
    have hle : st.slotOfCar c ≤ 10 := by
      rcases hvals c h0 h1 with hv | hv | hv
      · omega
      · omega
      · exact hv.2
    exact ⟨hle, hbij1 c h0 h1 hp⟩
  · intro s t hs1 hs10 ht1 ht10 hne heq
    obtain ⟨hb0, hb1, hbs⟩ := hbij2 s hs1 hs10 hne
    have hnet : st.slotToCar t ≠ -1 := by
      rw [← heq]
      exact hne
    obtain ⟨hc0, hc1, hct⟩ := hbij2 t ht1 ht10 hnet
    rw [← heq] at hct
    rw [← hbs, ← hct]

/-- Claim C10: emergencyMode never touches the monthly-pass flags, so a pass
registered before an emergency reset still exempts its car afterwards. -/
theorem emergency_preserves_pass (st : State) (c : Int) :
    (emergencyMode st).passUser c = st.passUser c := rfl

theorem exitFee_value (st : State) (car now e : Int)
    (hpass : st.passUser car = 0) (heq : now - st.entryTimeOfCar car = e)
    (he : 0 ≤ e) :
    exitFee st car now = ((e + 3599) / 3600) * 50 := by
  simp only [exitFee, heq, hpass, ne_eq, not_true_eq_false, if_false]
  rw [if_neg (not_lt.2 he),
    if_neg (not_lt.2 (Int.ediv_nonneg (by omega : (0 : Int) ≤ e + 3599)
      (by norm_num : (0 : Int) ≤ 3600)))]

theorem exitFee_pass (st : State) (car now : Int) (hpass : st.passUser car ≠ 0) :
    exitFee st car now = 0 := by
  simp only [exitFee, ne_eq, hpass, not_false_eq_true, if_true]

/-- Claim C3: a parked exit charges 0 for pass holders and otherwise
`ceiling(elapsed / 3600) * 50` with `elapsed = max(0, now - entryTime)`;
3600 elapsed seconds cost 50, 3601 cost 100; totalRevenue grows by exactly
the fee. -/
theorem exit_fee_spec (st : State) (car now now2 : Int)
    (h0 : 0 ≤ car) (h1 : car < 100) (hp : 1 ≤ st.slotOfCar car) :
    (∃ pr, (vehicleExit st car now now2).2 = .exited (st.slotOfCar car)
      (if st.passUser car ≠ 0 then 0
       else ⌈((max (now - st.entryTimeOfCar car) 0 : Int) : ℚ) / 3600⌉ * 50) pr) ∧
    (vehicleExit st car now now2).1.totalRevenue = st.totalRevenue +
      (if st.passUser car ≠ 0 then 0
       else ⌈((max (now - st.entryTimeOfCar car) 0 : Int) : ℚ) / 3600⌉ * 50) ∧
    (st.passUser car = 0 → now - st.entryTimeOfCar car = 3600 →
      (vehicleExit st car now now2).1.totalRevenue = st.totalRevenue + 50) ∧
    (st.passUser car = 0 → now - st.entryTimeOfCar car = 3601 →
      (vehicleExit st car now now2).1.totalRevenue = st.totalRevenue + 100) ∧
    (st.passUser car ≠ 0 →
      (vehicleExit st car now now2).1.totalRevenue = st.totalRevenue) := by
  have hn : ¬ (car < 0 ∨ 100 ≤ car) := by omega
  obtain ⟨⟨pr, hpr⟩, hrev⟩ := vehicleExit_parked_fee st car now now2 hn hp
  have hco := exitFee_eq_ceil st car now
  refine ⟨⟨pr, by rw [hpr, hco]⟩, by rw [hrev, hco], ?_, ?_, ?_⟩
  · intro hpass heq
    rw [hrev, exitFee_value st car now 3600 hpass heq (by norm_num)]
    norm_num
  · intro hpass heq
    rw [hrev, exitFee_value st car now 3601 hpass heq (by norm_num)]
    norm_num
  · intro hpass
    rw [hrev, exitFee_pass st car now hpass, add_zero]

/-- Claim C4: when a parked car exits while the queue is non-empty, the front
waiting car is dequeued and parked in the just-freed slot (the smallest slot
free at that moment) at the freshly sampled timestamp, a new open history
record is prepended for it, and the queue shrinks by one. -/
theorem exit_promotes_front (st : State) (car now now2 : Int) (hre : Reachable st)
    (h0 : 0 ≤ car) (h1 : car < 100) (hp : 1 ≤ st.slotOfCar car)
    (hq : 0 < st.queue.count) :
    ∀ next rest, waitList st.queue = next :: rest →
      (vehicleExit st car now now2).2 =
        .exited (st.slotOfCar car) (exitFee st car now) (some (next, st.slotOfCar car)) ∧
      waitList (vehicleExit st car now now2).1.queue = rest ∧
      (vehicleExit st car now now2).1.queue.count = st.queue.count - 1 ∧
      (vehicleExit st car now now2).1.slotOfCar next = st.slotOfCar car ∧
      (vehicleExit st car now now2).1.entryTimeOfCar next = now2 ∧
      (vehicleExit st car now now2).1.slotToCar (st.slotOfCar car) = next ∧
      (vehicleExit st car now now2).1.history =
        addHistoryNode (closeHist st.history car (st.slotOfCar car) now)
          next (st.slotOfCar car) now2 0 ∧
      st.slotOfCar car ∈ freeList
        { st with slotToCar :=
            fun s => if s = st.slotOfCar car then -1 else st.slotToCar s } ∧
      ∀ x ∈ freeList
        { st with slotToCar :=
            fun s => if s = st.slotOfCar car then -1 else st.slotToCar s },
        st.slotOfCar car ≤ x := by
  intro next rest hlist
  have hinv := inv_reachable st hre
  have hinv' := hinv
  obtain ⟨hord, hsz10, hms, hwf, hwmem, hwrev, hnd, hqe, hvals, hbij1, hbij2⟩ := hinv'
  have hn : ¬ (car < 0 ∨ 100 ≤ car) := by omega
  have hsz : st.heap.size = 0 := hqe hq
  obtain ⟨hd2, hdwf, hdcount, hdlist, hdarr⟩ := dequeueWait_spec st.queue hwf hq
  have hnext_eq : (dequeueWait st.queue).2 = next := by
    rw [hlist] at hdlist
    exact (List.cons.inj hdlist.symm).1
  have hrest_eq : waitList (dequeueWait st.queue).1 = rest := by
    rw [hlist] at hdlist
    exact (List.cons.inj hdlist.symm).2
  have hnextmem : next ∈ waitList st.queue := by
    rw [hlist]
    exact List.mem_cons_self _ _
  obtain ⟨hnb0, hnb1, hn2⟩ := hwmem next hnextmem
  rw [← hnext_eq] at hnb0 hnb1
  obtain ⟨p_res, p_hsize, p_queue, p_soc, p_etc, p_stc, p_hist, p_rev, p_pass⟩ :=
    vehicleExit_parked_promote st car now now2 hn hp hq hsz hnb0 hnb1
  have hp10 : st.slotOfCar car ≤ 10 := by
    rcases hvals car h0 h1 with hv | hv | hv
    · omega
    · omega
    · exact hv.2
  have hfree0 : freeList st = [] := by
    have hcard := congrArg Multiset.card hms
    rw [heapMs_card, Multiset.coe_card, hsz] at hcard
    exact List.length_eq_zero.1 hcard.symm
  have hnofree : ∀ s ∈ slots10, ¬ ((st.slotToCar s == -1) = true) := by
    rw [freeList] at hfree0
    exact List.filter_eq_nil_iff.1 hfree0
  refine ⟨?_, ?_, ?_, ?_, ?_, ?_, ?_, ?_, ?_⟩
  · rw [p_res, hnext_eq]
  · rw [p_queue, hrest_eq]
  · rw [p_queue, hdcount]
  · rw [p_soc]
    dsimp only
    rw [hnext_eq, if_pos rfl]
  · rw [p_etc]
    dsimp only
    rw [hnext_eq, if_pos rfl]
  · rw [p_stc]
    dsimp only
    rw [if_pos rfl]
    exact hnext_eq
  · rw [p_hist, hnext_eq]
  · rw [mem_freeList]
    refine ⟨hp, hp10, ?_⟩
    show (if st.slotOfCar car = st.slotOfCar car then (-1 : Int) else
      st.slotToCar (st.slotOfCar car)) = -1
    rw [if_pos rfl]
  · intro x hx
    rw [mem_freeList] at hx
    obtain ⟨hx1, hx10, hxf⟩ := hx
    rcases eq_or_ne x (st.slotOfCar car) with hxs | hxs
    · omega
    · have hxf' : (if x = st.slotOfCar car then (-1 : Int) else st.slotToCar x) = -1 :=
        hxf
      rw [if_neg hxs] at hxf'
      have hno := hnofree x ((mem_slots10 x).2 ⟨hx1, hx10⟩)
      rw [beq_iff_eq] at hno
      exact absurd hxf' hno

/-- Claim C5: every rejected operation leaves the state untouched: Entry with
an out-of-range id, Entry for an already parked or already waiting car,
Entry when no slot is free and the wait queue is at capacity (the car stays
absent), and Exit for an absent car; these are exactly the rejections of
canEnter plus the full-facility and not-parked cases. -/
theorem rejected_ops_unchanged :
    (∀ (st : State) (car : Int), canEnter st car = false ↔
      (car < 0 ∨ 100 ≤ car) ∨ 1 ≤ st.slotOfCar car ∨ st.slotOfCar car = -2) ∧
    (∀ (st : State) (car now : Int), car < 0 ∨ 100 ≤ car →
      vehicleEntry st car now = (st, .invalidId)) ∧
    (∀ (st : State) (car now : Int), 0 ≤ car → car < 100 → 1 ≤ st.slotOfCar car →
      vehicleEntry st car now = (st, .duplicateParked)) ∧
    (∀ (st : State) (car now : Int), 0 ≤ car → car < 100 → st.slotOfCar car = -2 →
      vehicleEntry st car now = (st, .duplicateWaiting)) ∧
    (∀ (st : State) (car now : Int), Reachable st → 0 ≤ car → car < 100 →
      st.slotOfCar car = -1 → freeList st = [] → st.queue.count = 10 →
      vehicleEntry st car now = (st, .facilityFull)) ∧
    (∀ (st : State) (car now now2 : Int), car < 0 ∨ 100 ≤ car →
      vehicleExit st car now now2 = (st, .invalidId)) ∧
    (∀ (st : State) (car now now2 : Int), 0 ≤ car → car < 100 →
      st.slotOfCar car = -1 → vehicleExit st car now now2 = (st, .notParked)) := by
  refine ⟨?_, ?_, ?_, ?_, ?_, ?_, ?_⟩
  · intro st car
    rw [canEnter]
    split_ifs with g1 g2 g3
    · simp only [eq_self_iff_true, true_iff]
      exact Or.inl g1
    · simp only [eq_self_iff_true, true_iff]
      exact Or.inr (Or.inl g2)
    · simp only [eq_self_iff_true, true_iff]
      exact Or.inr (Or.inr g3)
    · constructor
      · intro hc
        cases hc
      · intro hc
        rcases hc with hc | hc | hc
        · exact absurd hc g1
        · exact absurd hc g2
        · exact absurd hc g3
  · intro st car now hid
    exact vehicleEntry_invalid st car now hid
  · intro st car now h0 h1 hp
    exact vehicleEntry_dupParked st car now (by omega) hp
  · intro st car now h0 h1 hw
    exact vehicleEntry_dupWaiting st car now (by omega) hw
  · intro st car now hre h0 h1 habs hfree hq10
    have hinv := inv_reachable st hre
    have hsz : st.heap.size = 0 := by
      rw [inv_size_eq st hinv, hfree]
      rfl
    exact vehicleEntry_full_queueFull st car now (by omega)
      (by omega) (by omega) hsz hq10
  · intro st car now now2 hid
    exact vehicleExit_invalid st car now now2 hid
  · intro st car now now2 h0 h1 habs
    exact vehicleExit_notParked st car now now2 (by omega) habs

/-- Claim C6: emergencyMode clears every car status and entry timestamp,
empties the slot map, rebuilds the free heap to hold exactly the slots
1..10, and empties the wait queue, while totalRevenue and the history list
are preserved unchanged. -/
theorem emergency_reset_spec (st : State) :
    (∀ c : Int, 0 ≤ c → c < 100 →
      (emergencyMode st).slotOfCar c = -1 ∧ (emergencyMode st).entryTimeOfCar c = 0) ∧
    (∀ s : Int, 1 ≤ s → s ≤ 10 → (emergencyMode st).slotToCar s = -1) ∧
    (heapList (emergencyMode st).heap : Multiset Int) = (slots10 : Multiset Int) ∧
    freeList (emergencyMode st) = slots10 ∧
    (emergencyMode st).queue.count = 0 ∧
    waitList (emergencyMode st).queue = [] ∧
    (emergencyMode st).totalRevenue = st.totalRevenue ∧
    (emergencyMode st).history = st.history := by
  have hfree : freeList (emergencyMode st) = slots10 := by
    rw [freeList, List.filter_eq_self]
    intro s hs
    have hb := (mem_slots10 s).1 hs
    show ((emergencyMode st).slotToCar s == -1) = true
    rw [beq_iff_eq]
    show (if 1 ≤ s ∧ s ≤ 10 then (-1 : Int) else st.slotToCar s) = -1
    rw [if_pos ⟨hb.1, hb.2⟩]
  refine ⟨?_, ?_, ?_, hfree, rfl, ?_, rfl, rfl⟩
  · intro c h0 h1
    constructor
    · show (if 0 ≤ c ∧ c < 100 then (-1 : Int) else st.slotOfCar c) = -1
      rw [if_pos ⟨h0, h1⟩]
    · show (if 0 ≤ c ∧ c < 100 then (0 : Int) else st.entryTimeOfCar c) = 0
      rw [if_pos ⟨h0, h1⟩]
  · intro s hs1 hs10
    show (if 1 ≤ s ∧ s ≤ 10 then (-1 : Int) else st.slotToCar s) = -1
    rw [if_pos ⟨hs1, hs10⟩]
  · exact (resetHeap_spec st.heap.arr).2.2
  · rw [waitList]
    rfl

/-- Claim C7: exiting a waiting car removes exactly it from the queue with
the order of the others preserved (the queue contents become the original
contents filtered at that car), the queue shrinks by one, its status is
cleared, no fee is charged and the history list is untouched. -/
theorem exit_waiting_spec (st : State) (car now now2 : Int) (hre : Reachable st)
    (h0 : 0 ≤ car) (h1 : car < 100) (hw : st.slotOfCar car = -2) :
    (vehicleExit st car now now2).2 = .removedFromQueue ∧
    waitList (vehicleExit st car now now2).1.queue =
      (waitList st.queue).filter (fun w => w ≠ car) ∧
    (vehicleExit st car now now2).1.queue.count = st.queue.count - 1 ∧
    (vehicleExit st car now now2).1.slotOfCar car = -1 ∧
    (∀ c : Int, c ≠ car →
      (vehicleExit st car now now2).1.slotOfCar c = st.slotOfCar c) ∧
    (vehicleExit st car now now2).1.totalRevenue = st.totalRevenue ∧
    (vehicleExit st car now now2).1.history = st.history := by
  have hinv := inv_reachable st hre
  obtain ⟨hord, hsz10, hms, hwf, hwmem, hwrev, hnd, hqe, hvals, hbij1, hbij2⟩ := hinv
  have hn : ¬ (car < 0 ∨ 100 ≤ car) := by omega
  obtain ⟨d1, d2, d3, d4, d5, d6, d7⟩ :=
    drainLoop_spec car (waitList st.queue) st.queue st.slotOfCar [] false hwf rfl
  have hlen : st.queue.count = (waitList st.queue).length :=
    (waitList_length st.queue).symm
  rw [← hlen] at d1 d2 d3 d4 d5 d6 d7
  have hcarmem : car ∈ waitList st.queue := hwrev car h0 h1 hw
  have hsoc : (drainLoop car st.queue.count st.queue st.slotOfCar [] false).2.1 =
      fun c => if c = car then -1 else st.slotOfCar c := by
    rw [d5, if_pos hcarmem]
  have htmp : (drainLoop car st.queue.count st.queue st.slotOfCar [] false).2.2.1 =
      (waitList st.queue).filter fun w => w ≠ car := by
    rw [d6, List.nil_append]
  have hq0wf : QWF (drainLoop car st.queue.count st.queue st.slotOfCar [] false).1 :=
    ⟨by rw [d4]; omega, fun _ => ⟨d2, d3⟩, fun hc => absurd hc (by rw [d4]; omega)⟩
  have hq0list :
      waitList (drainLoop car st.queue.count st.queue st.slotOfCar [] false).1 = [] := by
    rw [waitList, d4]
    rfl
  have hcap : (drainLoop car st.queue.count st.queue st.slotOfCar [] false).1.count +
      ((waitList st.queue).filter fun w => w ≠ car).length ≤ 10 := by
    rw [d4]
    have hfle := List.length_filter_le (fun w : Int => decide (w ≠ car))
      (waitList st.queue)
    have h10 := hwf.1
    rw [waitList_length] at hfle
    omega
  obtain ⟨rwf, rcount, rlist⟩ := refillLoop_spec
    ((waitList st.queue).filter fun w => w ≠ car)
    (drainLoop car st.queue.count st.queue st.slotOfCar [] false).1 hq0wf hcap
  rw [hq0list, List.nil_append] at rlist
  rw [d4] at rcount
  have hrem : (drainLoop car st.queue.count st.queue st.slotOfCar [] false).2.2.2
      = true := by
    rw [d7]
    simp [hcarmem]
  have hflen : ((waitList st.queue).filter fun w => w ≠ car).length =
      st.queue.count - 1 := by
    have hfun : (fun w : Int => decide (w ≠ car)) = fun x : Int => x != car := by
      funext x
      rcases eq_or_ne x car with h | h
      · subst h
        simp
      · simp [h]
    have herase : (waitList st.queue).erase car =
        (waitList st.queue).filter fun w => w ≠ car := by
      rw [List.Nodup.erase_eq_filter hnd car, hfun]
    rw [← herase, List.length_erase_of_mem hcarmem, waitList_length]
  have hres : vehicleExit st car now now2 =
      ({ st with
          queue := refillLoop
            (drainLoop car st.queue.count st.queue st.slotOfCar [] false).1
            (drainLoop car st.queue.count st.queue st.slotOfCar [] false).2.2.1,
          slotOfCar :=
            (drainLoop car st.queue.count st.queue st.slotOfCar [] false).2.1 },
       .removedFromQueue) := by
    rw [vehicleExit_waiting_eq st car now now2 hn hw]
    dsimp only
    rw [hrem]
    rfl
  rw [hres]
  refine ⟨rfl, ?_, ?_, ?_, ?_, rfl, rfl⟩
  · dsimp only
    rw [htmp, rlist]
  · dsimp only
    rw [htmp, rcount, hflen]
    omega
  · dsimp only
    rw [hsoc]
    dsimp only
    rw [if_pos rfl]
  · intro c hc
    dsimp only
    rw [hsoc]
    dsimp only
    rw [if_neg hc]

/-- Claim C8: addHistoryNode prepends a new record at the head (newest-first
order); closing on exit sets the exitTime of the first (most recent) open
record matching the car and slot, leaves every other record unchanged, and is
a no-op (the exit still completing) when no open record matches. -/
theorem history_close_spec :
    (∀ (h : List HNode) (car slot entry exitT : Int),
      addHistoryNode h car slot entry exitT =
        { car := car, slot := slot, entryTime := entry, exitTime := exitT } :: h) ∧
    (∀ (l : List HNode) (car slot exitT : Int),
      (∀ n ∈ l, ¬ (n.car = car ∧ n.slot = slot ∧ n.exitTime = 0)) →
      closeHist l car slot exitT = l) ∧
    (∀ (l1 l2 : List HNode) (n : HNode) (car slot exitT : Int),
      (∀ m ∈ l1, ¬ (m.car = car ∧ m.slot = slot ∧ m.exitTime = 0)) →
      n.car = car → n.slot = slot → n.exitTime = 0 →
      closeHist (l1 ++ n :: l2) car slot exitT =
        l1 ++ { n with exitTime := exitT } :: l2) ∧
    (∀ (st : State) (car now now2 : Int), ¬ (car < 0 ∨ 100 ≤ car) →
      1 ≤ st.slotOfCar car → st.queue.count = 0 →
      (vehicleExit st car now now2).1.history =
        closeHist st.history car (st.slotOfCar car) now ∧
      ∃ fee, (vehicleExit st car now now2).2 =
        .exited (st.slotOfCar car) fee none) := by
  refine ⟨fun h car slot entry exitT => rfl, ?_, ?_, ?_⟩
  · intro l car slot exitT hno
    induction l with
    | nil => rfl
    | cons n rest ih =>
      simp only [closeHist]
      rw [if_neg (hno n (List.mem_cons_self n rest)),
        ih fun m hm => hno m (List.mem_cons_of_mem n hm)]
  · intro l1 l2 n car slot exitT hno hc hs he
    induction l1 with
    | nil =>
      simp only [List.nil_append, closeHist]
      rw [if_pos ⟨hc, hs, he⟩]
    | cons m rest ih =>
      simp only [List.cons_append, closeHist, List.append_eq]
      rw [if_neg (hno m (List.mem_cons_self m rest)),
        ih fun x hx => hno x (List.mem_cons_of_mem m hx)]
  · intro st car now now2 hn hp hq0
    rw [vehicleExit_parked_noqueue_eq st car now now2 hn hp hq0]
    exact ⟨rfl, exitFee st car now, rfl⟩

/-- Claim C9: in every reachable state a non-empty wait queue implies an
empty free heap, so inside the promotion step of vehicleExit the
heapRemoveMin performed right after heapInsert returns the freed slot
(never -1) and the re-enqueue branch is dead: the queue always shrinks. -/
theorem queue_full_invariant (st : State) (hre : Reachable st) :
    (0 < st.queue.count → st.heap.size = 0) ∧
    (∀ car now now2 : Int, 0 ≤ car → car < 100 → 1 ≤ st.slotOfCar car →
      0 < st.queue.count →
      (heapRemoveMin (heapInsert st.heap (st.slotOfCar car))).2 = st.slotOfCar car ∧
      (heapRemoveMin (heapInsert st.heap (st.slotOfCar car))).2 ≠ -1 ∧
      (vehicleExit st car now now2).1.queue.count = st.queue.count - 1) := by
  have hinv := inv_reachable st hre
  have hinv' := hinv
  obtain ⟨hord, hsz10, hms, hwf, hwmem, hwrev, hnd, hqe, hvals, hbij1, hbij2⟩ := hinv'
  refine ⟨hqe, ?_⟩
  intro car now now2 h0 h1 hp hq
  have hsz := hqe hq
  have hins := heapInsert_emptyHeap st.heap (st.slotOfCar car) hsz
  have hrm := heapRemoveMin_single
    { arr := fun k => if k = 1 then st.slotOfCar car else st.heap.arr k, size := 1 } rfl
  have hv : (heapRemoveMin (heapInsert st.heap (st.slotOfCar car))).2 =
      st.slotOfCar car := by
    rw [hins, hrm]
    show (if (1 : Nat) = 1 then st.slotOfCar car else st.heap.arr 1) = _
    rw [if_pos rfl]
  refine ⟨hv, by rw [hv]; omega, ?_⟩
  obtain ⟨hd2, hdwf, hdcount, hdlist, hdarr⟩ := dequeueWait_spec st.queue hwf hq
  have hnextmem : (dequeueWait st.queue).2 ∈ waitList st.queue := by
    rw [hdlist]
    exact List.mem_cons_self _ _
  obtain ⟨hnb0, hnb1, hn2⟩ := hwmem _ hnextmem
  obtain ⟨p_res, p_hsize, p_queue, p_rest⟩ :=
    vehicleExit_parked_promote st car now now2 (by omega) hp hq hsz hnb0 hnb1
  rw [p_queue, hdcount]

/-! ### Concrete scenario states for the witnesses -/

/-- The state after cars 0..n-1 entered at time 0, in order. -/
def entryFold (n : Nat) : State :=
  (List.range n).foldl (fun s (c : Nat) => (vehicleEntry s (c : Int) 0).1) initSystem

theorem reachable_entryFold : ∀ n : Nat, Reachable (entryFold n) := by
  intro n
  induction n with
  | zero => exact Reachable.init
  | succ m ih =>
    show Reachable ((List.range (m + 1)).foldl
      (fun s (c : Nat) => (vehicleEntry s (c : Int) 0).1) initSystem)
    rw [List.range_succ, List.foldl_append, List.foldl_cons, List.foldl_nil]
    exact Reachable.entry _ _ _ ih

set_option maxRecDepth 4000
set_option maxHeartbeats 4000000

/-- Witness for C2: the bijection holds in the freshly initialised state. -/
theorem occupancy_bijection_witness : OccBij initSystem :=
  occupancy_bijection initSystem Reachable.init

/-- Witness for C3: car 0 enters at time 100 and exits at time 3700
(exactly 3600 s parked), paying 50. -/
theorem exit_fee_spec_witness :
    (vehicleExit (vehicleEntry initSystem 0 100).1 0 3700 3800).1.totalRevenue =
      (vehicleEntry initSystem 0 100).1.totalRevenue + 50 :=
  (exit_fee_spec (vehicleEntry initSystem 0 100).1 0 3700 3800 (by decide) (by decide)
    (by decide)).2.2.1 (by decide) (by decide)

/-- Witness for C4: with ten cars parked and car 10 waiting, car 0's exit
promotes car 10 into car 0's freed slot and empties the queue. -/
theorem exit_promotes_front_witness :
    waitList (vehicleExit (entryFold 11) 0 5 6).1.queue = [] ∧
    (vehicleExit (entryFold 11) 0 5 6).1.slotOfCar 10 =
      (entryFold 11).slotOfCar 0 := by
  have h := exit_promotes_front (entryFold 11) 0 5 6 (reachable_entryFold 11)
    (by decide) (by decide) (by decide) (by decide) 10 [] (by decide)
  exact ⟨h.2.1, h.2.2.2.1⟩

/-- Witness for C7: with car 10 waiting, its exit removes it from the queue
and leaves the history untouched. -/
theorem exit_waiting_spec_witness :
    (vehicleExit (entryFold 11) 10 5 6).2 = .removedFromQueue ∧
    (vehicleExit (entryFold 11) 10 5 6).1.history = (entryFold 11).history := by
  have h := exit_waiting_spec (entryFold 11) 10 5 6 (reachable_entryFold 11)
    (by decide) (by decide) (by decide)
  exact ⟨h.1, h.2.2.2.2.2.2⟩

/-- Witness for C9: with car 10 waiting, the heap is empty and car 0's exit
shrinks the queue by one. -/
theorem queue_full_invariant_witness :
    (entryFold 11).heap.size = 0 ∧
    (vehicleExit (entryFold 11) 0 5 6).1.queue.count =
      (entryFold 11).queue.count - 1 := by
  have h := queue_full_invariant (entryFold 11) (reachable_entryFold 11)
  exact ⟨h.1 (by decide),
    (h.2 0 5 6 (by decide) (by decide) (by decide) (by decide)).2.2⟩

end SmartParking
